import Mathlib

/-!
Shallow embedding of the `expa` experiment-tracking service
(source files under `src/api/expa/`), covering:

* the histogram binning and `complete=true` filtering of
  `PgSqlStore.plot_metrics` (`src/api/expa/db/sql_store.py`);
* the `max_step` / `last_timestamp` high-water-mark updates of
  `PgSqlStore._write_metrics` together with run creation
  (`_get_or_create_run`);
* the float canonicalisation `clean_float`;
* the create-if-absent resolution `_get_or_create_project` /
  `_get_or_create_exp` / `_get_or_create_run` / `_get_or_create_project_metric`
  with their id caches;
* the duplicate-ignoring parameter writes `_write_params`;
* the msgpack wire format of `DataMessage` / `ParamsMessage`
  (`src/api/expa/pubsub/pubsub.py`): `pack`, `pack_safe`, `unpack`.

Machine integers are modelled as `Nat` / `Int`; a byte string is a
`List Nat` with every entry below 256 whenever it was produced by the
encoder.  Python doubles appear in two roles and get two models: as
*values* compared with `max` (timestamps in the store) they are modelled
by `ℚ`, and as *wire payloads* (the msgpack `float64` family and tensor
buffers) by their raw bit patterns, which is exactly what the wire
carries.
-/

namespace Expa

/-! ## plot_metrics binning (PgSqlStore.plot_metrics)

The SQL query bins the x axis:

```
binsize = (max(int(xmax), 1) - 1) // bins + 1
SELECT rid, (CEIL(stepcol::float / binsize)::bigint * binsize) AS bin, ...
WHERE ... AND stepcol >= xmin AND stepcol <= xmax
GROUP BY rid, bin
```

For the integer steps and bin sizes in range (far below 2^53) the float
ceiling agrees with the exact rational ceiling, which is how we model it.
-/

/-- Bin width chosen in `plot_metrics`:
`binsize = (max(int(xmax), 1) - 1) // bins + 1` (Python floor division on
non-negative operands is `Nat` division). -/
def binsizeFor (bins xmax : Nat) : Nat := (max xmax 1 - 1) / bins + 1

/-- Bin assigned to a raw x value by
`CEIL(stepcol::float / binsize)::bigint * binsize`: the ceiling of
`v / binsize`, times `binsize` (in `Nat`, `⌈v/b⌉ = (v + b - 1) / b`). -/
def binOf (binsize v : Nat) : Nat := ((v + binsize - 1) / binsize) * binsize

/-- The pre-aggregation stage of the query: from raw `(rid, step)` samples,
keep those with `xmin <= step <= xmax` and assign each its bin. -/
def binnedSamples (raw : List (Nat × Nat)) (binsize xmin xmax : Nat) :
    List (Nat × Nat) :=
  (raw.filter (fun p => xmin ≤ p.2 && p.2 ≤ xmax)).map
    (fun p => (p.1, binOf binsize p.2))

/-- Largest bin of run `rid` in the per-run binned frame.  The frame holds one
row per `(rid, bin)` (the SQL `GROUP BY rid, bin`), so
`df.groupby('rid')['bin'].idxmax()` selects exactly the row carrying this
value for each rid. -/
def maxBin (df : List (Nat × Nat)) (rid : Nat) : Nat :=
  ((df.filter (fun r => r.1 = rid)).map (fun r => r.2)).foldr max 0

/-- The `complete=true` pre-aggregation step
`df = df.drop(df.groupby('rid')['bin'].idxmax())`: remove, for each run, the
row whose bin is the run's maximum. -/
def dropLastBins (df : List (Nat × Nat)) : List (Nat × Nat) :=
  df.filter (fun r => r.2 ≠ maxBin df r.1)

/-- Group key of a run, read off the runs frame `runs_df[['rid'] + groupby]`
that `df.merge(runs_df, on='rid')` joins against. -/
def groupOf (runsDf : List (Nat × String)) (rid : Nat) : Option String :=
  (runsDf.find? (fun r => r.1 = rid)).map (fun r => r.2)

/-- Contribution count of a `(group, bin)` cell after the merge and
`df['runs'] = 1; df.groupby(groupby + ['bin']).agg({'runs': 'sum'})`:
the number of per-run rows landing in the cell (rows whose rid has no match
in `runs_df` are dropped by the inner merge). -/
def runsCount (runsDf : List (Nat × String)) (df : List (Nat × Nat))
    (g : String) (b : Nat) : Nat :=
  (df.filter (fun r => r.2 = b && groupOf runsDf r.1 = some g)).length

/-- Total number of runs in a group:
`runs_df['total_runs'] = 1; runs_df.groupby(groupby).agg({'total_runs': 'sum'})`. -/
def totalRuns (runsDf : List (Nat × String)) (g : String) : Nat :=
  (runsDf.filter (fun r => r.2 = g)).length

/-- The `(group, bin)` cells present after cross-run aggregation. -/
def aggKeys (runsDf : List (Nat × String)) (df : List (Nat × Nat)) :
    List (String × Nat) :=
  (df.filterMap (fun r => (groupOf runsDf r.1).map (fun g => (g, r.2)))).dedup

/-- The `(group, bin)` cells surviving a `complete=true` plot: first the
per-run maximum bin is dropped, then after aggregation
`df = df[df['runs'] == df['total_runs']]` keeps only full cells. -/
def completeKeys (runsDf : List (Nat × String)) (dfBinned : List (Nat × Nat)) :
    List (String × Nat) :=
  let df2 := dropLastBins dfBinned
  (aggKeys runsDf df2).filter
    (fun gb => runsCount runsDf df2 gb.1 gb.2 = totalRuns runsDf gb.1)

/-! ## Run high-water marks (_get_or_create_run, _write_metrics)

`_get_or_create_run` inserts a run with `last_timestamp = created_at` and
leaves `max_step` NULL; every `_write_metrics` / `_write_tensor_meta` then
runs

```
UPDATE expa.runs
SET max_step = GREATEST($2, max_step),
    last_timestamp = GREATEST($3, last_timestamp)
WHERE rid = $1
```

SQL `GREATEST` ignores NULL operands.
-/

/-- The bookkeeping columns of a row of `expa.runs` touched by metric writes. -/
structure RunRow where
  created_at : ℚ
  last_timestamp : Option ℚ
  max_step : Option Int
deriving DecidableEq

/-- Row state right after `_get_or_create_run` inserts it:
`last_timestamp` is set to the creation time, `max_step` is not in the
INSERT column list and starts NULL. -/
def createRun (now : ℚ) : RunRow := ⟨now, some now, none⟩

/-- SQL `GREATEST(x, col)` on a nullable integer column: NULLs are ignored. -/
def greatestInt (x : Int) : Option Int → Int
  | none => x
  | some y => max x y

/-- SQL `GREATEST(x, col)` on a nullable float column: NULLs are ignored. -/
def greatestRat (x : ℚ) : Option ℚ → ℚ
  | none => x
  | some y => max x y

/-- The UPDATE run by `_write_metrics` (and `_write_tensor_meta`) for one
write carrying `step` and `timestamp`. -/
def writeUpdate (r : RunRow) (step : Int) (timestamp : ℚ) : RunRow :=
  { r with
      max_step := some (greatestInt step r.max_step)
      last_timestamp := some (greatestRat timestamp r.last_timestamp) }

/-- A sequence of metric writes applied to a run row, in order. -/
def applyWrites (r : RunRow) (ws : List (Int × ℚ)) : RunRow :=
  ws.foldl (fun acc w => writeUpdate acc w.1 w.2) r

/-! ## Float canonicalisation (clean_float)

`_write_metrics` stores `clean_float(value)` for every scalar sample.  A
Python float is here a symbolic double: NaN, one of the two infinities, or
a finite value (`ℚ`).  `np.finfo(np.float64).max = (2^53 - 1) * 2^971`.
-/

/-- A Python float as classified by `clean_float`. -/
inductive PyFloat where
  | nan
  | posInf
  | negInf
  | finite (q : ℚ)
deriving DecidableEq

/-- Largest finite IEEE-754 double, `np.finfo(np.float64).max`. -/
def float64Max : ℚ := (2 ^ 53 - 1) * 2 ^ 971

/-- Translation of `clean_float` (src/api/expa/db/sql_store.py): NaN becomes
NULL, the infinities clamp to the extreme finite doubles, finite values pass
through (a finite value never compares equal to an infinity). -/
def clean_float : PyFloat → Option PyFloat
  | .nan => none
  | .posInf => some (.finite float64Max)
  | .negInf => some (.finite (-float64Max))
  | .finite q => some (.finite q)

/-- One row of `expa.scalar_data` as inserted by `_write_metrics`. -/
structure ScalarRow where
  mid : Nat
  xid : Nat
  rid : Nat
  step : Int
  value : Option PyFloat
  timestamp : ℚ
deriving DecidableEq

/-- The batch insert of `_write_metrics`:
`(mids[metric], xid, rid, step, clean_float(value), timestamp)` per metric. -/
def writeMetricsRows (mids : String → Nat) (xid rid : Nat)
    (metrics : List (String × PyFloat)) (step : Int) (timestamp : ℚ) :
    List ScalarRow :=
  metrics.map (fun mv => ⟨mids mv.1, xid, rid, step, clean_float mv.2, timestamp⟩)

/-! ## Create-if-absent id resolution (_get_or_create_project and friends)

All four resolvers follow the same shape, modelled once over a generic
name column:

```
if cached_id := cache.get(key): return cached_id
INSERT INTO t (name, ...) VALUES (...) ON CONFLICT (name) DO NOTHING
id = SELECT id FROM t WHERE name = ...
assert id is not None
cache[key] = id
return id
```

A table is the list of `(id, name)` rows in insertion order plus the next
serial id; `UNIQUE (name)` and PostgreSQL serials starting at 1 are the
well-formedness invariant.
-/

/-- A table with a serial id column and a unique name column. -/
structure NameTable where
  rows : List (Nat × String)
  nextId : Nat
deriving DecidableEq

/-- Schema invariant: unique names, serial ids starting at 1. -/
def NameTable.wf (t : NameTable) : Prop :=
  (t.rows.map (fun r => r.2)).Nodup ∧ (∀ r ∈ t.rows, 1 ≤ r.1) ∧ 1 ≤ t.nextId

/-- `INSERT ... ON CONFLICT (name) DO NOTHING`. -/
def insertIfAbsent (t : NameTable) (name : String) : NameTable :=
  if t.rows.any (fun r => r.2 = name) then t
  else ⟨t.rows ++ [(t.nextId, name)], t.nextId + 1⟩

/-- `SELECT id FROM t WHERE name = $1`. -/
def selectByName (t : NameTable) (name : String) : Option Nat :=
  (t.rows.find? (fun r => r.2 = name)).map (fun r => r.1)

/-- Table plus the in-process id cache in front of it. -/
structure GocState where
  table : NameTable
  cache : List (String × Nat)
deriving DecidableEq

/-- State invariant: well-formed table, and every cached id is the id of a
row with that name. -/
def GocState.wf (st : GocState) : Prop :=
  st.table.wf ∧ ∀ e ∈ st.cache, (e.2, e.1) ∈ st.table.rows

/-- The database half of a resolver call: insert-if-absent, select by name,
fill the cache on success (`assert id is not None` makes a NULL id a raised
exception, modelled as `none` with the cache left alone). -/
def dbResolve (st : GocState) (name : String) : GocState × Option Nat :=
  match selectByName (insertIfAbsent st.table name) name with
  | some i => (⟨insertIfAbsent st.table name, (name, i) :: st.cache⟩, some i)
  | none => (⟨insertIfAbsent st.table name, st.cache⟩, none)

/-- One `_get_or_create_*` call.  The cache probe is
`if cached := cache.get(key):` — a cached id of `0` would test falsy and
fall through to the database path, which the model reproduces. -/
def getOrCreate (st : GocState) (name : String) : GocState × Option Nat :=
  match (st.cache.find? (fun e => e.1 = name)).map (fun e => e.2) with
  | some i => if i = 0 then dbResolve st name else (st, some i)
  | none => dbResolve st name

/-- A sequence of resolver calls; returns the final state and every call's
`(name, returned id)`. -/
def getOrCreateAll (st : GocState) (names : List String) :
    GocState × List (String × Option Nat) :=
  names.foldl
    (fun acc n => ((getOrCreate acc.1 n).1, acc.2 ++ [(n, (getOrCreate acc.1 n).2)]))
    (st, [])

/-! ## Duplicate-ignoring parameter writes (_write_params)

```
INSERT INTO expa.run_params (rid, param, value)
VALUES ($1, $2, $3)
ON CONFLICT (rid, param) DO NOTHING
```
executed for every `(param, value)` item of the params dict.
-/

/-- A row of `expa.run_params`: `(rid, param, value)`. -/
abbrev ParamRow := Nat × String × String

/-- One conflict-ignoring insert into `expa.run_params`. -/
def insertParamIgnore (tbl : List ParamRow) (rid : Nat) (p v : String) :
    List ParamRow :=
  if tbl.any (fun row => row.1 = rid && row.2.1 = p) then tbl
  else tbl ++ [(rid, p, v)]

/-- `_write_params`: the batched insert over the items of the params dict. -/
def writeParams (tbl : List ParamRow) (rid : Nat)
    (params : List (String × String)) : List ParamRow :=
  params.foldl (fun acc pv => insertParamIgnore acc rid pv.1 pv.2) tbl

/-- Stored value of a `(rid, param)` key. -/
def lookupParam (tbl : List ParamRow) (rid : Nat) (p : String) :
    Option String :=
  (tbl.find? (fun row => row.1 = rid && row.2.1 = p)).map (fun row => row.2.2)

/-! ## msgpack wire model (src/api/expa/pubsub/pubsub.py)

`DataMessage.pack` runs `msgpack.packb` with a `default` hook that replaces
every `np.ndarray` by `{'__np__': (dtype.str, shape, tobytes())}`;
`DataMessage.unpack` runs `msgpack.unpackb` with an `object_hook` that
rebuilds arrays via `np.frombuffer(buf, dtype).reshape(shape)`.  The byte
stream is modelled as a `List Nat` (one entry per byte), Python strings by
their UTF-8 bytes, and a Python float by its 64-bit pattern — msgpack
serialises exactly those bytes.  The value domain covers every shape these
messages produce (nil, int, float64, str, bin, array, str-keyed map);
msgpack maps with duplicate or non-string keys, ext types and the
bool/float32 formats never arise from this producer and are outside the
model, so the modelled `unpack` rejects them where Python would fall back
to untyped dict contents. -/

/-- Big-endian base-256 digits of `n` in `k` bytes (faithful for
`n < 256 ^ k`, which every use guards). -/
def beBytes : Nat → Nat → List Nat
  | 0, _ => []
  | k + 1, n => (n / 256 ^ k) :: beBytes k (n % 256 ^ k)

/-- Read `k` big-endian bytes off the stream. -/
def readBE : Nat → List Nat → Option (Nat × List Nat)
  | 0, bs => some (0, bs)
  | _ + 1, [] => none
  | k + 1, b :: bs => (readBE k bs).map (fun r => (b * 256 ^ k + r.1, r.2))

/-- A msgpack object of the shapes this codebase serialises. -/
inductive MsgValue where
  | nil
  | int (n : Int)
  | float (bits : Nat)
  | str (s : List Nat)
  | bin (b : List Nat)
  | arr (vs : List MsgValue)
  | map (kvs : List (List Nat × MsgValue))

/-- msgpack integer encoding, smallest format first, as `msgpack.packb`
chooses it; integers outside the uint64/int64 ranges raise. -/
def packInt (n : Int) : Option (List Nat) :=
  if 0 ≤ n then
    if n.toNat < 128 then some [n.toNat]
    else if n.toNat < 256 then some [0xcc, n.toNat]
    else if n.toNat < 65536 then some (0xcd :: beBytes 2 n.toNat)
    else if n.toNat < 4294967296 then some (0xce :: beBytes 4 n.toNat)
    else if n.toNat < 18446744073709551616 then some (0xcf :: beBytes 8 n.toNat)
    else none
  else
    if -32 ≤ n then some [(n + 256).toNat]
    else if -128 ≤ n then some [0xd0, (n + 256).toNat]
    else if -32768 ≤ n then some (0xd1 :: beBytes 2 (n + 65536).toNat)
    else if -2147483648 ≤ n then some (0xd2 :: beBytes 4 (n + 4294967296).toNat)
    else if -9223372036854775808 ≤ n then
      some (0xd3 :: beBytes 8 (n + 18446744073709551616).toNat)
    else none

/-- msgpack str encoding of a UTF-8 byte string (fixstr/str8/str16/str32). -/
def packStrBytes (s : List Nat) : Option (List Nat) :=
  if s.length < 32 then some ((0xa0 + s.length) :: s)
  else if s.length < 256 then some (0xd9 :: s.length :: s)
  else if s.length < 65536 then some (0xda :: (beBytes 2 s.length ++ s))
  else if s.length < 4294967296 then some (0xdb :: (beBytes 4 s.length ++ s))
  else none

/-- msgpack bin encoding of a raw byte payload (bin8/bin16/bin32). -/
def packBinBytes (b : List Nat) : Option (List Nat) :=
  if b.length < 256 then some (0xc4 :: b.length :: b)
  else if b.length < 65536 then some (0xc5 :: (beBytes 2 b.length ++ b))
  else if b.length < 4294967296 then some (0xc6 :: (beBytes 4 b.length ++ b))
  else none

/-- msgpack array header (fixarray/array16/array32). -/
def arrHeader (n : Nat) : Option (List Nat) :=
  if n < 16 then some [0x90 + n]
  else if n < 65536 then some (0xdc :: beBytes 2 n)
  else if n < 4294967296 then some (0xdd :: beBytes 4 n)
  else none

/-- msgpack map header (fixmap/map16/map32). -/
def mapHeader (n : Nat) : Option (List Nat) :=
  if n < 16 then some [0x80 + n]
  else if n < 65536 then some (0xde :: beBytes 2 n)
  else if n < 4294967296 then some (0xdf :: beBytes 4 n)
  else none

mutual
/-- Serialisation of one msgpack value (`msgpack.packb`); `none` models the
exceptions raised on out-of-range sizes. -/
def packValue : MsgValue → Option (List Nat)
  | .nil => some [0xc0]
  | .int n => packInt n
  | .float bits =>
      if bits < 18446744073709551616 then some (0xcb :: beBytes 8 bits)
      else none
  | .str s => packStrBytes s
  | .bin b => packBinBytes b
  | .arr vs => do
      let hdr ← arrHeader vs.length
      let body ← packElems vs
      pure (hdr ++ body)
  | .map kvs => do
      let hdr ← mapHeader kvs.length
      let body ← packEntries kvs
      pure (hdr ++ body)

/-- Serialisation of array elements, in order. -/
def packElems : List MsgValue → Option (List Nat)
  | [] => some []
  | v :: vs => do
      let e ← packValue v
      let es ← packElems vs
      pure (e ++ es)

/-- Serialisation of map entries: each key as a str, then its value. -/
def packEntries : List (List Nat × MsgValue) → Option (List Nat)
  | [] => some []
  | kv :: kvs => do
      let k ← packStrBytes kv.1
      let v ← packValue kv.2
      let rest ← packEntries kvs
      pure (k ++ v ++ rest)
end

/-- Two's-complement reading of a `full`-range unsigned value. -/
def sgn (half full m : Nat) : Int :=
  if m < half then (m : Int) else (m : Int) - (full : Int)

mutual
/-- One msgpack object off the front of the stream (`msgpack.unpackb`).
The fuel argument only bounds recursion depth; `unpackb` supplies
`2 * length` which the roundtrip lemmas show is always enough. -/
def parseVal : Nat → List Nat → Option (MsgValue × List Nat)
  | 0, _ => none
  | _ + 1, [] => none
  | fuel + 1, b :: bs =>
    if b < 0x80 then some (.int (b : Int), bs)
    else if b < 0x90 then
      (parseEntries fuel (b - 0x80) bs).map (fun r => (.map r.1, r.2))
    else if b < 0xa0 then
      (parseElems fuel (b - 0x90) bs).map (fun r => (.arr r.1, r.2))
    else if b < 0xc0 then
      let n := b - 0xa0
      if n ≤ bs.length then some (.str (bs.take n), bs.drop n) else none
    else if b = 0xc0 then some (.nil, bs)
    else if b = 0xc4 then do
      let r ← readBE 1 bs
      if r.1 ≤ r.2.length then pure (.bin (r.2.take r.1), r.2.drop r.1) else none
    else if b = 0xc5 then do
      let r ← readBE 2 bs
      if r.1 ≤ r.2.length then pure (.bin (r.2.take r.1), r.2.drop r.1) else none
    else if b = 0xc6 then do
      let r ← readBE 4 bs
      if r.1 ≤ r.2.length then pure (.bin (r.2.take r.1), r.2.drop r.1) else none
    else if b = 0xcb then (readBE 8 bs).map (fun r => (.float r.1, r.2))
    else if b = 0xcc then (readBE 1 bs).map (fun r => (.int (r.1 : Int), r.2))
    else if b = 0xcd then (readBE 2 bs).map (fun r => (.int (r.1 : Int), r.2))
    else if b = 0xce then (readBE 4 bs).map (fun r => (.int (r.1 : Int), r.2))
    else if b = 0xcf then (readBE 8 bs).map (fun r => (.int (r.1 : Int), r.2))
    else if b = 0xd0 then
      (readBE 1 bs).map (fun r => (.int (sgn 128 256 r.1), r.2))
    else if b = 0xd1 then
      (readBE 2 bs).map (fun r => (.int (sgn 32768 65536 r.1), r.2))
    else if b = 0xd2 then
      (readBE 4 bs).map (fun r => (.int (sgn 2147483648 4294967296 r.1), r.2))
    else if b = 0xd3 then
      (readBE 8 bs).map (fun r =>
        (.int (sgn 9223372036854775808 18446744073709551616 r.1), r.2))
    else if b = 0xd9 then do
      let r ← readBE 1 bs
      if r.1 ≤ r.2.length then pure (.str (r.2.take r.1), r.2.drop r.1) else none
    else if b = 0xda then do
      let r ← readBE 2 bs
      if r.1 ≤ r.2.length then pure (.str (r.2.take r.1), r.2.drop r.1) else none
    else if b = 0xdb then do
      let r ← readBE 4 bs
      if r.1 ≤ r.2.length then pure (.str (r.2.take r.1), r.2.drop r.1) else none
    else if b = 0xdc then do
      let r ← readBE 2 bs
      (parseElems fuel r.1 r.2).map (fun q => (.arr q.1, q.2))
    else if b = 0xdd then do
      let r ← readBE 4 bs
      (parseElems fuel r.1 r.2).map (fun q => (.arr q.1, q.2))
    else if b = 0xde then do
      let r ← readBE 2 bs
      (parseEntries fuel r.1 r.2).map (fun q => (.map q.1, q.2))
    else if b = 0xdf then do
      let r ← readBE 4 bs
      (parseEntries fuel r.1 r.2).map (fun q => (.map q.1, q.2))
    else if 0xe0 ≤ b && b ≤ 0xff then some (.int ((b : Int) - 256), bs)
    else none

/-- Parse `n` consecutive msgpack objects (an array body). -/
def parseElems : Nat → Nat → List Nat → Option (List MsgValue × List Nat)
  | _, 0, bs => some ([], bs)
  | 0, _ + 1, _ => none
  | fuel + 1, n + 1, bs => do
      let r ← parseVal fuel bs
      let q ← parseElems fuel n r.2
      pure (r.1 :: q.1, q.2)

/-- Parse `n` consecutive key/value pairs (a map body); the keys this
producer writes are always strings. -/
def parseEntries : Nat → Nat → List Nat →
    Option (List (List Nat × MsgValue) × List Nat)
  | _, 0, bs => some ([], bs)
  | 0, _ + 1, _ => none
  | fuel + 1, n + 1, bs => do
      let rk ← parseVal fuel bs
      match rk.1 with
      | .str k => do
          let rv ← parseVal fuel rk.2
          let q ← parseEntries fuel n rv.2
          pure ((k, rv.1) :: q.1, q.2)
      | _ => none
end

/-- `msgpack.unpackb`: parse one object and require the buffer to be fully
consumed (`ExtraData` raises otherwise). -/
def unpackb (bs : List Nat) : Option MsgValue :=
  match parseVal (2 * bs.length) bs with
  | some (v, []) => some v
  | _ => none

/-! ## numpy arrays and the pubsub messages -/

/-- The observable content of an `np.ndarray` as the wire sees it:
`dtype.str` (UTF-8 bytes), `shape`, and the raw buffer `tobytes()`. -/
structure NDArray where
  dtypeStr : List Nat
  shape : List Nat
  data : List Nat
deriving DecidableEq

/-- `ndarray.nbytes`: the raw buffer size. -/
def NDArray.nbytes (a : NDArray) : Nat := a.data.length

/-- Bytes of the numeric itemsize suffix of a numpy `dtype.str` such as
`<f8` or `|b1`; `U` dtypes count 4-byte characters.  (Parametric dtype
strings such as `<M8[ns]` are outside the model.) -/
def itemsize (dtype : List Nat) : Option Nat :=
  let digits := dtype.reverse.takeWhile (fun c => 0x30 ≤ c && c ≤ 0x39)
  if digits.isEmpty then none
  else
    let v := digits.reverse.foldl (fun acc c => acc * 10 + (c - 0x30)) 0
    match dtype.reverse.dropWhile (fun c => 0x30 ≤ c && c ≤ 0x39) with
    | kind :: _ => if kind = 0x55 then some (4 * v) else some v
    | [] => none

/-- Product of the dimensions: the element count of a shape. -/
def prodDims (l : List Nat) : Nat := l.foldr (fun a b => a * b) 1

/-- The UTF-8 bytes of `"__np__"`. -/
def keyNp : List Nat := [0x5f, 0x5f, 0x6e, 0x70, 0x5f, 0x5f]

/-- The UTF-8 bytes of `"project"`. -/
def keyProject : List Nat := [0x70, 0x72, 0x6f, 0x6a, 0x65, 0x63, 0x74]

/-- The UTF-8 bytes of `"user"`. -/
def keyUser : List Nat := [0x75, 0x73, 0x65, 0x72]

/-- The UTF-8 bytes of `"exp"`. -/
def keyExp : List Nat := [0x65, 0x78, 0x70]

/-- The UTF-8 bytes of `"run"`. -/
def keyRun : List Nat := [0x72, 0x75, 0x6e]

/-- The UTF-8 bytes of `"step"`. -/
def keyStep : List Nat := [0x73, 0x74, 0x65, 0x70]

/-- The UTF-8 bytes of `"timestamp"`. -/
def keyTimestamp : List Nat := [0x74, 0x69, 0x6d, 0x65, 0x73, 0x74, 0x61, 0x6d, 0x70]

/-- The UTF-8 bytes of `"data"`. -/
def keyData : List Nat := [0x64, 0x61, 0x74, 0x61]

/-- The UTF-8 bytes of `"params"`. -/
def keyParams : List Nat := [0x70, 0x61, 0x72, 0x61, 0x6d, 0x73]

/-- The `DataMessage` dataclass: strings by their UTF-8 bytes, the float
timestamp by its 64-bit pattern, the data dict as an ordered association
list. -/
structure DataMessage where
  project : List Nat
  user : List Nat
  exp : List Nat
  run : List Nat
  step : Int
  timestamp : Nat
  data : List (List Nat × NDArray)
deriving DecidableEq

/-- The `encode_np` default hook:
`{'__np__': (obj.dtype.str, obj.shape, obj.tobytes())}`. -/
def encodeNp (a : NDArray) : MsgValue :=
  .map [(keyNp, .arr [.str a.dtypeStr,
                      .arr (a.shape.map (fun d => .int (Int.ofNat d))),
                      .bin a.data])]

/-- `dataclasses.asdict(self)` with `encode_np` applied to the arrays: the
msgpack object `pack` serialises (Python dicts preserve field order). -/
def DataMessage.asMsgValue (m : DataMessage) : MsgValue :=
  .map [(keyProject, .str m.project), (keyUser, .str m.user),
        (keyExp, .str m.exp), (keyRun, .str m.run), (keyStep, .int m.step),
        (keyTimestamp, .float m.timestamp),
        (keyData, .map (m.data.map (fun kv => (kv.1, encodeNp kv.2))))]

/-- `DataMessage.pack`: `msgpack.packb(asdict(self), default=encode_np)`. -/
def DataMessage.pack (m : DataMessage) : Option (List Nat) :=
  packValue m.asMsgValue

/-- Default `max_size` of `pack_safe` (9_999_000 bytes, under the PubSub
message cap). -/
def defaultMaxSize : Nat := 9999000

/-- `DataMessage.pack_safe`: pack; if the buffer exceeds `max_size`, drop
every data field whose tensor payload exceeds 10_000 bytes and re-pack;
`assert len(buf) <= max_size` then fails fatally (modelled `none`) if the
re-encoded message is still oversized. -/
def DataMessage.pack_safe (m : DataMessage) (maxSize : Nat) :
    Option (List Nat) := do
  let buf ← m.pack
  if buf.length > maxSize then
    let data2 := m.data.filter (fun kv => kv.2.nbytes ≤ 10000)
    let buf2 ← DataMessage.pack { m with data := data2 }
    if buf2.length ≤ maxSize then pure buf2 else none
  else pure buf

/-- Dict lookup on a decoded msgpack map. -/
def lookupKey (kvs : List (List Nat × MsgValue)) (k : List Nat) :
    Option MsgValue :=
  (kvs.find? (fun kv => kv.1 = k)).map (fun kv => kv.2)

/-- Dict assignment `d[k] = v`: update in place, or append a new key. -/
def setKeyVal (kvs : List (List Nat × MsgValue)) (k : List Nat)
    (v : MsgValue) : List (List Nat × MsgValue) :=
  if k ∈ kvs.map (fun kv => kv.1) then
    kvs.map (fun kv => if kv.1 = k then (k, v) else kv)
  else kvs ++ [(k, v)]

/-- Python `s.split('/', maxsplit=1)` destructured into two pieces: the part
before the first slash and everything after it; with no slash the two-way
destructuring raises (`none`). -/
def splitSlashOnce (s : List Nat) : Option (List Nat × List Nat) :=
  if (0x2f : Nat) ∈ s then
    some (s.takeWhile (fun c => c ≠ 0x2f), (s.dropWhile (fun c => c ≠ 0x2f)).tail)
  else none

/-- The legacy patch shared by both unpackers: if the decoded dict has no
`exp` key, split the `run` value on its first `/` into `exp` and `run`. -/
def legacyPatch (kvs : List (List Nat × MsgValue)) :
    Option (List (List Nat × MsgValue)) :=
  if keyExp ∈ kvs.map (fun kv => kv.1) then some kvs
  else
    match lookupKey kvs keyRun with
    | some (.str r) =>
        (splitSlashOnce r).map (fun er =>
          setKeyVal (setKeyVal kvs keyRun (.str er.2)) keyExp (.str er.1))
    | _ => none

/-- Exact keyword match for `DataMessage(**obj)` / `ParamsMessage(**obj)`:
the dict's keys must be precisely the dataclass fields. -/
def keysExactly (kvs : List (List Nat × MsgValue))
    (fields : List (List Nat)) : Bool :=
  (kvs.map (fun kv => kv.1)).all (fun k => k ∈ fields) &&
    fields.all (fun f => f ∈ kvs.map (fun kv => kv.1))

/-- The `decode_np` object hook on one decoded map: a map carrying `__np__`
becomes `np.frombuffer(buf, dtype).reshape(shape)`.  The reconstruction
succeeds exactly when the dtype has a parseable itemsize and the buffer
length is `itemsize * prod(shape)` (numpy's `-1` dimension inference is
outside the model); the rebuilt array has the same dtype string, shape and
bytes. -/
def decodeNp (v : MsgValue) : Option NDArray :=
  match v with
  | .map kvs =>
      if ((kvs.map (fun kv => kv.1)).Nodup : Bool) then
        match lookupKey kvs keyNp with
        | some (.arr [.str d, .arr sh, .bin buf]) => do
            let dims ← sh.mapM (fun dv =>
              match dv with
              | .int dn => if 0 ≤ dn then some dn.toNat else none
              | _ => none)
            let isz ← itemsize d
            if 0 < isz ∧ buf.length = isz * prodDims dims then
              pure ⟨d, dims, buf⟩
            else none
        | _ => none
      else none
  | _ => none

/-- The decoded `data` field: a dict from metric name to rebuilt ndarray.
A `__np__` key at this level would make the hook swallow the whole dict;
the model rejects that shape. -/
def extractData (v : MsgValue) : Option (List (List Nat × NDArray)) :=
  match v with
  | .map kvs =>
      if ((kvs.map (fun kv => kv.1)).Nodup : Bool) &&
          !(keyNp ∈ kvs.map (fun kv => kv.1)) then
        kvs.mapM (fun kv => (decodeNp kv.2).map (fun a => (kv.1, a)))
      else none
  | _ => none

/-- Interpretation of a decoded msgpack object as a `DataMessage`
(`DataMessage(**obj)` after the legacy exp/run patch), with the dataclass
field types enforced. -/
def msgToData (v : MsgValue) : Option DataMessage :=
  match v with
  | .map kvs =>
      if ((kvs.map (fun kv => kv.1)).Nodup : Bool) then do
        let patched ← legacyPatch kvs
        match lookupKey patched keyProject, lookupKey patched keyUser,
            lookupKey patched keyExp, lookupKey patched keyRun,
            lookupKey patched keyStep, lookupKey patched keyTimestamp,
            lookupKey patched keyData with
        | some (.str pr), some (.str us), some (.str ex), some (.str ru),
            some (.int st), some (.float ts), some dv =>
            if keysExactly patched
                [keyProject, keyUser, keyExp, keyRun, keyStep, keyTimestamp,
                 keyData] then
              (extractData dv).map (fun d => ⟨pr, us, ex, ru, st, ts, d⟩)
            else none
        | _, _, _, _, _, _, _ => none
      else none
  | _ => none

/-- `DataMessage.unpack`: decode the buffer, patch legacy messages, rebuild
the dataclass. -/
def DataMessage.unpack (bs : List Nat) : Option DataMessage :=
  (unpackb bs).bind msgToData

/-- The `ParamsMessage` dataclass. -/
structure ParamsMessage where
  project : List Nat
  user : List Nat
  exp : List Nat
  run : List Nat
  params : List (List Nat × List Nat)
deriving DecidableEq

/-- `dataclasses.asdict(self)` for a params message. -/
def ParamsMessage.asMsgValue (m : ParamsMessage) : MsgValue :=
  .map [(keyProject, .str m.project), (keyUser, .str m.user),
        (keyExp, .str m.exp), (keyRun, .str m.run),
        (keyParams, .map (m.params.map (fun kv => (kv.1, .str kv.2))))]

/-- `ParamsMessage.pack`: `msgpack.packb(asdict(self))`. -/
def ParamsMessage.pack (m : ParamsMessage) : Option (List Nat) :=
  packValue m.asMsgValue

/-- Interpretation of a decoded msgpack object as a `ParamsMessage`. -/
def msgToParams (v : MsgValue) : Option ParamsMessage :=
  match v with
  | .map kvs =>
      if ((kvs.map (fun kv => kv.1)).Nodup : Bool) then do
        let patched ← legacyPatch kvs
        match lookupKey patched keyProject, lookupKey patched keyUser,
            lookupKey patched keyExp, lookupKey patched keyRun,
            lookupKey patched keyParams with
        | some (.str pr), some (.str us), some (.str ex), some (.str ru),
            some (.map pkvs) =>
            if keysExactly patched
                [keyProject, keyUser, keyExp, keyRun, keyParams] then
              if ((pkvs.map (fun kv => kv.1)).Nodup : Bool) then
                (pkvs.mapM (fun (kv : List Nat × MsgValue) =>
                  match kv.2 with
                  | .str s => some (kv.1, s)
                  | _ => (none : Option (List Nat × List Nat)))).map
                  (fun ps => ⟨pr, us, ex, ru, ps⟩)
              else none
            else none
        | _, _, _, _, _ => none
      else none
  | _ => none

/-- `ParamsMessage.unpack`. -/
def ParamsMessage.unpack (bs : List Nat) : Option ParamsMessage :=
  (unpackb bs).bind msgToParams

/-- Well-formedness a real `DataMessage` enjoys on the Python side: the data
dict has unique keys, none of them the reserved `__np__`, and every array's
buffer is consistent with its dtype and shape (which `tobytes()` of a real
`np.ndarray` guarantees). -/
def DataMessage.wf (m : DataMessage) : Prop :=
  (m.data.map (fun kv => kv.1)).Nodup ∧
  keyNp ∉ m.data.map (fun kv => kv.1) ∧
  ∀ kv ∈ m.data, ∃ isz, itemsize kv.2.dtypeStr = some isz ∧ 0 < isz ∧
    kv.2.data.length = isz * prodDims kv.2.shape

/-- A little-endian float32 array of two elements, as a sample payload. -/
def sampleArray : NDArray := ⟨[0x3c, 0x66, 0x34], [2], [1, 2, 3, 4, 5, 6, 7, 8]⟩

/-- A small concrete data message used to instantiate the theorems. -/
def sampleMsg : DataMessage :=
  ⟨[0x70], [0x75], [0x65], [0x72], 1, 7, [([0x74], sampleArray)]⟩

/-- The packed bytes of `sampleMsg`. -/
def sampleBuf : List Nat := (DataMessage.pack sampleMsg).getD []

/-- A concrete legacy data-message dict: no `exp` key, `run` is `"e/r"`. -/
def legacyDataKvs : List (List Nat × MsgValue) :=
  [(keyProject, .str [0x70]), (keyUser, .str [0x75]),
   (keyRun, .str [0x65, 0x2f, 0x72]), (keyStep, .int 1),
   (keyTimestamp, .float 7), (keyData, .map [])]

/-- The packed bytes of `legacyDataKvs`. -/
def legacyDataBuf : List Nat := (packValue (.map legacyDataKvs)).getD []

/-- A concrete legacy params-message dict: no `exp` key, `run` is `"e/r"`. -/
def legacyParamsKvs : List (List Nat × MsgValue) :=
  [(keyProject, .str [0x70]), (keyUser, .str [0x75]),
   (keyRun, .str [0x65, 0x2f, 0x72]), (keyParams, .map [])]

/-- The packed bytes of `legacyParamsKvs`. -/
def legacyParamsBuf : List Nat := (packValue (.map legacyParamsKvs)).getD []

/-- Roundtrip property of one msgpack value: its serialisation parses back
to it, leaving the trailing bytes untouched, whenever the parser is run
with fuel at least `2 * length - 1`. -/
def ParsesBack (v : MsgValue) : Prop :=
  ∀ bs, packValue v = some bs → ∀ fuel rest,
    2 * bs.length ≤ fuel + 1 → parseVal fuel (bs ++ rest) = some (v, rest)

/-! ## Supporting lemmas -/

theorem natDiv_ceil_bounds (v bs : Nat) (h : 0 < bs) :
    v ≤ bs * ((v + bs - 1) / bs) ∧ bs * ((v + bs - 1) / bs) ≤ v + bs - 1 := by
  have hdm := Nat.div_add_mod (v + bs - 1) bs
  have hmod := Nat.mod_lt (v + bs - 1) h
  generalize (v + bs - 1) / bs = k at hdm ⊢
  generalize (v + bs - 1) % bs = r at hdm hmod
  generalize bs * k = m at hdm ⊢
  omega

theorem ceil_cast_div_eq (v bs k : Nat) (h : 0 < bs) (hv1 : v ≤ bs * k)
    (hv2 : bs * k ≤ v + bs - 1) : ⌈(v : ℚ) / (bs : ℚ)⌉ = (k : ℤ) := by
  have hbs : (0 : ℚ) < (bs : ℚ) := by exact_mod_cast h
  have h2 : (bs * k : Nat) < v + bs := by omega
  have h2q : (bs : ℚ) * k < v + bs := by exact_mod_cast h2
  have h1q : (v : ℚ) ≤ bs * k := by exact_mod_cast hv1
  rw [Int.ceil_eq_iff]
  refine ⟨?_, ?_⟩
  · push_cast
    rw [sub_lt_iff_lt_add, show ((v : ℚ) / bs + 1) = (v + bs) / bs by field_simp,
      lt_div_iff₀ hbs]
    nlinarith
  · rw [div_le_iff₀ hbs]
    push_cast
    nlinarith

/-! ## C1: plot_metrics bin width and bin assignment -/

/-- C1 (amended): in `plot_metrics`, for `1 ≤ bins ≤ 10000` the bin width is
`binsize = (max(xmax, 1) - 1) // bins + 1`; every raw x value `v` with
`xmin ≤ v ≤ xmax` is assigned the bin `ceil(v / binsize) * binsize`, the
inclusive upper bound of its width-`binsize` interval, and `bins` such
intervals cover `[1, xmax]`.  For `bins = 100, xmax = 1000` the binsize is 10
and the value 1000 maps to bin 1000; for `bins = 100, xmax = 1001` the binsize
is 11 and the value 1001 maps to bin 1001 (1001 is an exact multiple of 11). -/
theorem plot_metrics_binning (bins xmax xmin v rid : Nat)
    (raw : List (Nat × Nat)) (hb1 : 1 ≤ bins) (hb2 : bins ≤ 10000)
    (hmem : (rid, v) ∈ raw) (hv1 : xmin ≤ v) (hv2 : v ≤ xmax) :
    binsizeFor bins xmax = (max xmax 1 - 1) / bins + 1 ∧
    (rid, binOf (binsizeFor bins xmax) v) ∈
      binnedSamples raw (binsizeFor bins xmax) xmin xmax ∧
    (binOf (binsizeFor bins xmax) v : ℤ) =
      ⌈(v : ℚ) / (binsizeFor bins xmax : ℚ)⌉ * (binsizeFor bins xmax : ℤ) ∧
    v ≤ binOf (binsizeFor bins xmax) v ∧
    binOf (binsizeFor bins xmax) v < v + binsizeFor bins xmax ∧
    xmax ≤ bins * binsizeFor bins xmax ∧
    binsizeFor 100 1000 = 10 ∧ binOf (binsizeFor 100 1000) 1000 = 1000 ∧
    binsizeFor 100 1001 = 11 ∧ binOf (binsizeFor 100 1001) 1001 = 1001 := by
  set bs := binsizeFor bins xmax with hbs
  have hbspos : 0 < bs := by
    rw [hbs]
    exact Nat.succ_pos _
  obtain ⟨hc1, hc2⟩ := natDiv_ceil_bounds v bs hbspos
  refine ⟨rfl, ?_, ?_, ?_, ?_, ?_, by decide, by decide, by decide, by decide⟩
  · simp only [binnedSamples, List.mem_map]
    refine ⟨(rid, v), ?_, rfl⟩
    simp only [List.mem_filter, hmem, true_and, Bool.and_eq_true, decide_eq_true_eq]
    exact ⟨hv1, hv2⟩
  · rw [binOf, ceil_cast_div_eq v bs _ hbspos hc1 hc2]
    push_cast
    ring
  · calc v ≤ bs * ((v + bs - 1) / bs) := hc1
      _ = (v + bs - 1) / bs * bs := by ring
  · calc (v + bs - 1) / bs * bs = bs * ((v + bs - 1) / bs) := by ring
      _ ≤ v + bs - 1 := hc2
      _ < v + bs := by omega
  · have hdm := Nat.div_add_mod (max xmax 1 - 1) bins
    have hmod := Nat.mod_lt (max xmax 1 - 1) (by omega : 0 < bins)
    simp only [hbs, binsizeFor, Nat.mul_add, Nat.mul_one]
    generalize (max xmax 1 - 1) / bins = q at hdm ⊢
    generalize (max xmax 1 - 1) % bins = r at hdm hmod
    generalize hbq : bins * q = m at hdm ⊢
    have hx : max xmax 1 = xmax ∨ max xmax 1 = 1 := by omega
    omega

/-- Witness for C1 at `bins = 100`, `xmax = 1000`, `v = 1000`. -/
theorem plot_metrics_binning_witness :
    (1, binOf (binsizeFor 100 1000) 1000) ∈
      binnedSamples [(1, 1000)] (binsizeFor 100 1000) 0 1000 :=
  (plot_metrics_binning 100 1000 0 1000 1 [(1, 1000)] (by decide) (by decide)
    (by decide) (by decide) (by decide)).2.1

/-- Counterexample for C1 as stated: with `bins = 100` and `xmax = 1001` the
binsize is 11, but the value 1001 maps to bin 1001, not 1012, because
`1001 = 91 * 11` exactly, so `ceil(1001 / 11) * 11 = 1001`. -/
theorem plot_metrics_binning_counterexample :
    binsizeFor 100 1001 = 11 ∧ binOf (binsizeFor 100 1001) 1001 = 1001 ∧
    binOf (binsizeFor 100 1001) 1001 ≠ 1012 := by decide

/-! ## C3: clean_float canonicalisation -/

/-- C3: on the scalar write path, NaN is stored as NULL, the infinities clamp
to the extreme finite doubles, and finite values are stored unchanged; every
row inserted by `_write_metrics` carries `clean_float` of its input value. -/
theorem clean_float_canonicalisation :
    clean_float .nan = none ∧
    clean_float .posInf = some (.finite float64Max) ∧
    clean_float .negInf = some (.finite (-float64Max)) ∧
    (∀ q : ℚ, clean_float (.finite q) = some (.finite q)) ∧
    (∀ (mids : String → Nat) (xid rid : Nat)
       (metrics : List (String × PyFloat)) (step : Int) (ts : ℚ)
       (row : ScalarRow), row ∈ writeMetricsRows mids xid rid metrics step ts →
       ∃ mv ∈ metrics, row.value = clean_float mv.2 ∧ row.mid = mids mv.1) ∧
    (∀ (mids : String → Nat) (xid rid : Nat)
       (metrics : List (String × PyFloat)) (step : Int) (ts : ℚ)
       (mv : String × PyFloat), mv ∈ metrics →
       (⟨mids mv.1, xid, rid, step, clean_float mv.2, ts⟩ : ScalarRow) ∈
         writeMetricsRows mids xid rid metrics step ts) := by
  refine ⟨rfl, rfl, rfl, fun q => rfl, ?_, ?_⟩
  · intro mids xid rid metrics step ts row hrow
    simp only [writeMetricsRows, List.mem_map] at hrow
    obtain ⟨mv, hmv, hrw⟩ := hrow
    exact ⟨mv, hmv, by rw [← hrw], by rw [← hrw]⟩
  · intro mids xid rid metrics step ts mv hmv
    simp only [writeMetricsRows, List.mem_map]
    exact ⟨mv, hmv, rfl⟩

/-- Witness for C3: a finite value passes through, and a NaN write lands as a
NULL-valued row. -/
theorem clean_float_canonicalisation_witness :
    clean_float (.finite 7) = some (.finite 7) ∧
    (⟨1, 2, 3, 4, clean_float .nan, 0⟩ : ScalarRow) ∈
      writeMetricsRows (fun _ => 1) 2 3 [("m", .nan)] 4 0 :=
  ⟨clean_float_canonicalisation.2.2.2.1 7,
   clean_float_canonicalisation.2.2.2.2.2 (fun _ => 1) 2 3 [("m", .nan)] 4 0
     ("m", .nan) (by decide)⟩

/-! ## C8: duplicate-ignoring parameter writes -/

theorem lookupParam_insert_some {tbl : List ParamRow} {rid' : Nat} {p : String}
    {v : String} (h : lookupParam tbl rid' p = some v) (rid : Nat)
    (q w : String) : lookupParam (insertParamIgnore tbl rid q w) rid' p = some v := by
  unfold insertParamIgnore
  split
  · exact h
  · unfold lookupParam at h ⊢
    rw [List.find?_append]
    rcases hfind : List.find? (fun row => row.1 = rid' && row.2.1 = p) tbl with _ | r
    · rw [hfind] at h
      simp at h
    · rw [hfind] at h ⊢
      simpa using h

theorem lookupParam_writeParams_some {rid : Nat} {ps : List (String × String)} :
    ∀ {tbl : List ParamRow} {rid' : Nat} {p v : String},
    lookupParam tbl rid' p = some v →
    lookupParam (writeParams tbl rid ps) rid' p = some v := by
  induction ps with
  | nil => intro tbl rid' p v h; exact h
  | cons qw ps ih =>
    intro tbl rid' p v h
    unfold writeParams at ih ⊢
    rw [List.foldl_cons]
    exact ih (lookupParam_insert_some h rid qw.1 qw.2)

/-- C8: `_write_params` inserts a `(param, value)` pair only if no row with
the same `(rid, param)` key exists; a duplicate key is ignored, leaving the
previously stored value in place (first value wins), and an absent key
receives the first value written for it. -/
theorem write_params_first_wins (tbl : List ParamRow) (rid : Nat)
    (ps : List (String × String)) :
    (∀ p v, lookupParam tbl rid p = some v →
       lookupParam (writeParams tbl rid ps) rid p = some v) ∧
    (∀ p v v₀, lookupParam tbl rid p = some v₀ →
       insertParamIgnore tbl rid p v = tbl) ∧
    (∀ p v, lookupParam tbl rid p = none →
       insertParamIgnore tbl rid p v = tbl ++ [(rid, p, v)]) ∧
    (∀ p, lookupParam tbl rid p = none →
       lookupParam (writeParams tbl rid ps) rid p =
         (ps.find? (fun pv => pv.1 = p)).map (fun pv => pv.2)) := by
  refine ⟨fun p v h => lookupParam_writeParams_some h, ?_, ?_, ?_⟩
  · intro p v v₀ h
    unfold insertParamIgnore
    rw [if_pos]
    unfold lookupParam at h
    rcases hfind : List.find? (fun row => row.1 = rid && row.2.1 = p) tbl with _ | r
    · rw [hfind] at h; simp at h
    · rw [List.any_eq_true]
      have hp := List.find?_some hfind
      exact ⟨r, List.mem_of_find?_eq_some hfind, hp⟩
  · intro p v h
    unfold insertParamIgnore
    rw [if_neg]
    unfold lookupParam at h
    rcases hfind : List.find? (fun row => row.1 = rid && row.2.1 = p) tbl with _ | r
    · intro hany
      rw [List.any_eq_true] at hany
      obtain ⟨row, hrow, hprow⟩ := hany
      rw [List.find?_eq_none] at hfind
      exact hfind row hrow hprow
    · rw [hfind] at h; simp at h
  · intro p
    induction ps generalizing tbl with
    | nil =>
      intro h
      simpa [writeParams] using h
    | cons qw ps ih =>
      intro h
      unfold writeParams
      rw [List.foldl_cons]
      by_cases hq : qw.1 = p
      · subst hq
        have hins : insertParamIgnore tbl rid qw.1 qw.2 = tbl ++ [(rid, qw.1, qw.2)] := by
          unfold insertParamIgnore
          rw [if_neg]
          unfold lookupParam at h
          rcases hfind : List.find? (fun row => row.1 = rid && row.2.1 = qw.1) tbl with _ | r
          · intro hany
            rw [List.any_eq_true] at hany
            obtain ⟨row, hrow, hprow⟩ := hany
            rw [List.find?_eq_none] at hfind
            exact hfind row hrow hprow
          · rw [hfind] at h; simp at h
        rw [hins]
        have hlook : lookupParam (tbl ++ [(rid, qw.1, qw.2)]) rid qw.1 = some qw.2 := by
          unfold lookupParam at h ⊢
          rw [List.find?_append]
          rcases hfind : List.find? (fun row => row.1 = rid && row.2.1 = qw.1) tbl with _ | r
          · rw [hfind]
            simp
          · rw [hfind] at h; simp at h
        have := @lookupParam_writeParams_some rid ps _ _ _ _ hlook
        unfold writeParams at this
        rw [this, List.find?_cons_of_pos _ (by simp)]
        simp
      · have hkeep : lookupParam (insertParamIgnore tbl rid qw.1 qw.2) rid p = none := by
          unfold insertParamIgnore
          split
          · exact h
          · unfold lookupParam at h ⊢
            rw [List.find?_append]
            rcases hfind : List.find? (fun row => row.1 = rid && row.2.1 = p) tbl with _ | r
            · rw [hfind]
              simp [hq]
            · rw [hfind] at h; simp at h
        have ih2 := ih _ hkeep
        unfold writeParams at ih2
        rw [ih2, List.find?_cons_of_neg _ (by simp [hq])]

/-- Witness for C8: a key already stored keeps its first value after a
conflicting write. -/
theorem write_params_first_wins_witness :
    lookupParam (writeParams [(1, "k", "v0")] 1 [("k", "v1")]) 1 "k" = some "v0" :=
  (write_params_first_wins [(1, "k", "v0")] 1 [("k", "v1")]).1 "k" "v0" (by decide)

/-! ## C2: monotonic high-water marks on runs -/

theorem le_foldlMaxStep :
    ∀ (l : List (Int × ℚ)) (a : Int), a ≤ l.foldl (fun acc x => max acc x.1) a := by
  intro l
  induction l with
  | nil => intro a; exact le_refl a
  | cons x xs ih =>
    intro a
    rw [List.foldl_cons]
    exact le_trans (le_max_left a x.1) (ih (max a x.1))

theorem foldlMaxStep_le_of_mem :
    ∀ (l : List (Int × ℚ)) (a : Int) (x : Int × ℚ), x ∈ l →
      x.1 ≤ l.foldl (fun acc y => max acc y.1) a := by
  intro l
  induction l with
  | nil => intro a x hx; cases hx
  | cons y ys ih =>
    intro a x hx
    rw [List.foldl_cons]
    rcases List.mem_cons.mp hx with rfl | hmem
    · exact le_trans (le_max_right a x.1) (le_foldlMaxStep ys (max a x.1))
    · exact ih (max a y.1) x hmem

theorem foldlMaxStep_attained :
    ∀ (l : List (Int × ℚ)) (a : Int),
      l.foldl (fun acc y => max acc y.1) a = a ∨
      ∃ x ∈ l, l.foldl (fun acc y => max acc y.1) a = x.1 := by
  intro l
  induction l with
  | nil => intro a; left; rfl
  | cons y ys ih =>
    intro a
    rw [List.foldl_cons]
    rcases ih (max a y.1) with h0 | ⟨x, hx, hfx⟩
    · rw [h0]
      rcases max_choice a y.1 with hm | hm
      · left; exact hm
      · right; exact ⟨y, List.mem_cons_self y ys, hm⟩
    · right
      exact ⟨x, List.mem_cons_of_mem y hx, hfx⟩

theorem le_foldlMaxTime :
    ∀ (l : List (Int × ℚ)) (a : ℚ), a ≤ l.foldl (fun acc x => max acc x.2) a := by
  intro l
  induction l with
  | nil => intro a; exact le_refl a
  | cons x xs ih =>
    intro a
    rw [List.foldl_cons]
    exact le_trans (le_max_left a x.2) (ih (max a x.2))

theorem foldlMaxTime_le_of_mem :
    ∀ (l : List (Int × ℚ)) (a : ℚ) (x : Int × ℚ), x ∈ l →
      x.2 ≤ l.foldl (fun acc y => max acc y.2) a := by
  intro l
  induction l with
  | nil => intro a x hx; cases hx
  | cons y ys ih =>
    intro a x hx
    rw [List.foldl_cons]
    rcases List.mem_cons.mp hx with rfl | hmem
    · exact le_trans (le_max_right a x.2) (le_foldlMaxTime ys (max a x.2))
    · exact ih (max a y.2) x hmem

theorem applyWrites_closed (ws : List (Int × ℚ)) :
    ∀ (c t0 : ℚ) (m : Int),
      applyWrites ⟨c, some t0, some m⟩ ws =
        ⟨c, some (ws.foldl (fun a x => max a x.2) t0),
            some (ws.foldl (fun a x => max a x.1) m)⟩ := by
  induction ws with
  | nil => intro c t0 m; rfl
  | cons w ws ih =>
    intro c t0 m
    show applyWrites (writeUpdate ⟨c, some t0, some m⟩ w.1 w.2) ws = _
    rw [show writeUpdate ⟨c, some t0, some m⟩ w.1 w.2 =
          (⟨c, some (max t0 w.2), some (max m w.1)⟩ : RunRow) by
        simp [writeUpdate, greatestInt, greatestRat, max_comm]]
    rw [ih c (max t0 w.2) (max m w.1)]
    simp [List.foldl_cons]

/-- C2 (amended): for every run created at time `c` and every non-empty
sequence of writes with steps `s₁..sₙ` and timestamps `t₁..tₙ`, in any order,
the stored `max_step` afterwards is `max(s₁..sₙ)` and the stored
`last_timestamp` is `max(c, t₁..tₙ)` — the creation time participates because
`_get_or_create_run` initialises `last_timestamp = created_at`, while
`max_step` starts NULL and `GREATEST` ignores NULLs.  Each individual write
sets both fields to `max(old, incoming)` and never decreases them, and the
final state is independent of write order. -/
theorem write_metrics_high_water (c : ℚ) (w : Int × ℚ) (ws : List (Int × ℚ)) :
    ((applyWrites (createRun c) (w :: ws)).max_step
        = some (ws.foldl (fun a x => max a x.1) w.1)) ∧
    ((applyWrites (createRun c) (w :: ws)).last_timestamp
        = some (ws.foldl (fun a x => max a x.2) (max c w.2))) ∧
    (∀ x ∈ w :: ws, x.1 ≤ ws.foldl (fun a x => max a x.1) w.1) ∧
    ((ws.foldl (fun a x => max a x.1) w.1) ∈ (w :: ws).map (fun x => x.1)) ∧
    (∀ x ∈ w :: ws, x.2 ≤ ws.foldl (fun a x => max a x.2) (max c w.2)) ∧
    (c ≤ ws.foldl (fun a x => max a x.2) (max c w.2)) ∧
    (∀ (r : RunRow) (s : Int) (t : ℚ),
      (writeUpdate r s t).max_step = some (greatestInt s r.max_step) ∧
      (writeUpdate r s t).last_timestamp = some (greatestRat t r.last_timestamp) ∧
      (∀ m, r.max_step = some m → m ≤ greatestInt s r.max_step) ∧
      s ≤ greatestInt s r.max_step ∧
      (∀ q, r.last_timestamp = some q → q ≤ greatestRat t r.last_timestamp) ∧
      t ≤ greatestRat t r.last_timestamp) ∧
    (∀ ws₂, (w :: ws).Perm ws₂ →
      applyWrites (createRun c) ws₂ = applyWrites (createRun c) (w :: ws)) := by
  have hstart : applyWrites (createRun c) (w :: ws) =
      applyWrites ⟨c, some (max c w.2), some w.1⟩ ws := by
    show applyWrites (writeUpdate (createRun c) w.1 w.2) ws = _
    rw [show writeUpdate (createRun c) w.1 w.2 =
          (⟨c, some (max c w.2), some w.1⟩ : RunRow) by
        simp [writeUpdate, createRun, greatestInt, greatestRat, max_comm]]
  refine ⟨?_, ?_, ?_, ?_, ?_, ?_, ?_, ?_⟩
  · rw [hstart, applyWrites_closed]
  · rw [hstart, applyWrites_closed]
  · intro x hx
    rcases List.mem_cons.mp hx with rfl | hmem
    · exact le_foldlMaxStep ws x.1
    · exact foldlMaxStep_le_of_mem ws w.1 x hmem
  · rcases foldlMaxStep_attained ws w.1 with h0 | ⟨x, hx, hfx⟩
    · rw [h0]
      exact List.mem_map_of_mem _ (List.mem_cons_self w ws)
    · rw [hfx]
      exact List.mem_map_of_mem _ (List.mem_cons_of_mem w hx)
  · intro x hx
    rcases List.mem_cons.mp hx with rfl | hmem
    · exact le_trans (le_max_right c x.2) (le_foldlMaxTime ws (max c x.2))
    · exact foldlMaxTime_le_of_mem ws (max c w.2) x hmem
  · exact le_trans (le_max_left c w.2) (le_foldlMaxTime ws (max c w.2))
  · intro r s t
    refine ⟨rfl, rfl, ?_, ?_, ?_, ?_⟩
    · intro m hm
      rw [hm]
      exact le_max_right s m
    · cases hms : r.max_step with
      | none => exact le_refl s
      | some m => exact le_max_left s m
    · intro q hq
      rw [hq]
      exact le_max_right t q
    · cases hts : r.last_timestamp with
      | none => exact le_refl t
      | some q => exact le_max_left t q
  · intro ws₂ hperm
    haveI : RightCommutative
        (fun (acc : RunRow) (x : Int × ℚ) => writeUpdate acc x.1 x.2) := by
      refine ⟨fun r a b => ?_⟩
      obtain ⟨rc, rt, rm⟩ := r
      cases rt <;> cases rm <;>
        simp [writeUpdate, greatestInt, greatestRat, max_comm, max_left_comm]
    show ws₂.foldl (fun acc x => writeUpdate acc x.1 x.2) (createRun c)
        = (w :: ws).foldl (fun acc x => writeUpdate acc x.1 x.2) (createRun c)
    exact (hperm.foldl_eq (createRun c)).symm

/-- Witness for C2 at creation time 0 and writes `(step, ts)` equal to
`(3, 1)` then `(1, 2)`: `max_step` ends at 3 and `last_timestamp` at 2. -/
theorem write_metrics_high_water_witness :
    (applyWrites (createRun 0) [(3, 1), (1, 2)]).max_step = some 3 ∧
    (applyWrites (createRun 0) [(3, 1), (1, 2)]).last_timestamp = some 2 := by
  have h := write_metrics_high_water 0 (3, 1) [(1, 2)]
  refine ⟨?_, ?_⟩
  · rw [h.1]
    norm_num
  · rw [h.2.1]
    norm_num

/-- Counterexample for C2 as stated: a run created at time 5 receiving a
single write with timestamp 3 stores `last_timestamp = 5`, not
`max(t₁..tₙ) = 3`, because the creation time seeds the column. -/
theorem write_metrics_last_timestamp_counterexample :
    (applyWrites (createRun 5) [(1, 3)]).last_timestamp = some 5 ∧
    (applyWrites (createRun 5) [(1, 3)]).last_timestamp ≠ some 3 := by
  have h : (applyWrites (createRun 5) [(1, 3)]).last_timestamp = some 5 := by
    show (writeUpdate (createRun 5) 1 3).last_timestamp = some 5
    simp [writeUpdate, createRun, greatestRat]
    norm_num
  refine ⟨h, ?_⟩
  rw [h]
  intro hcontra
  have : (5 : ℚ) = 3 := Option.some.inj hcontra
  norm_num at this

/-! ## C7: create-if-absent id resolution -/

theorem select_of_mem {t : NameTable} (hw : t.wf) {i : Nat} {n : String}
    (hm : (i, n) ∈ t.rows) : selectByName t n = some i := by
  unfold selectByName
  rcases hfind : t.rows.find? (fun r => r.2 = n) with _ | r
  · rw [List.find?_eq_none] at hfind
    exact absurd (by simp : decide ((i, n).2 = n) = true) (hfind (i, n) hm)
  · have hp : r.2 = n := by simpa using List.find?_some hfind
    have hrm : r ∈ t.rows := List.mem_of_find?_eq_some hfind
    have : r = (i, n) :=
      List.inj_on_of_nodup_map hw.1 hrm hm (by simpa using hp)
    rw [hfind, this]
    rfl

theorem insertIfAbsent_wf {t : NameTable} (hw : t.wf) (n : String) :
    (insertIfAbsent t n).wf := by
  unfold insertIfAbsent
  split
  · exact hw
  · rename_i hany
    refine ⟨?_, ?_, ?_⟩
    · rw [List.map_append, List.nodup_append]
      refine ⟨hw.1, List.nodup_singleton n, ?_⟩
      intro a ha hb
      simp only [List.map_cons, List.map_nil, List.mem_singleton] at hb
      subst hb
      rw [List.mem_map] at ha
      obtain ⟨r, hr, hr2⟩ := ha
      exact hany (List.any_eq_true.mpr ⟨r, hr, by simp [hr2]⟩)
    · intro r hr
      rcases List.mem_append.mp hr with hold | hnew
      · exact hw.2.1 r hold
      · rw [List.mem_singleton] at hnew
        rw [hnew]
        exact hw.2.2
    · exact le_trans hw.2.2 (Nat.le_succ _)

theorem insertIfAbsent_rows_mono {t : NameTable} {r : Nat × String}
    (hm : r ∈ t.rows) (n : String) : r ∈ (insertIfAbsent t n).rows := by
  unfold insertIfAbsent
  split
  · exact hm
  · exact List.mem_append_left _ hm

theorem select_insertIfAbsent_mono {t : NameTable} {n : String} {i : Nat}
    (h : selectByName t n = some i) (m : String) :
    selectByName (insertIfAbsent t m) n = some i := by
  unfold insertIfAbsent
  split
  · exact h
  · unfold selectByName at h ⊢
    rw [List.find?_append]
    rcases hfind : t.rows.find? (fun r => r.2 = n) with _ | r
    · rw [hfind] at h
      simp at h
    · rw [hfind] at h ⊢
      simpa using h

theorem select_insertIfAbsent_self {t : NameTable} (hw : t.wf) (n : String) :
    ∃ i, selectByName (insertIfAbsent t n) n = some i ∧
      (i, n) ∈ (insertIfAbsent t n).rows := by
  have hwf2 := insertIfAbsent_wf hw n
  suffices h : ∃ i, (i, n) ∈ (insertIfAbsent t n).rows by
    obtain ⟨i, hmem⟩ := h
    exact ⟨i, select_of_mem hwf2 hmem, hmem⟩
  unfold insertIfAbsent
  split
  · rename_i hany
    obtain ⟨r, hr, hp⟩ := List.any_eq_true.mp hany
    refine ⟨r.1, ?_⟩
    have : r = (r.1, n) := by
      have : r.2 = n := by simpa using hp
      exact Prod.ext rfl this
    rw [← this]
    exact hr
  · exact ⟨t.nextId, List.mem_append_right _ (List.mem_singleton.mpr rfl)⟩

theorem dbResolve_step (st : GocState) (n : String) (hw : st.wf) :
    (dbResolve st n).1.wf ∧
    (∃ i, (dbResolve st n).2 = some i ∧
      selectByName (dbResolve st n).1.table n = some i) ∧
    (∀ m j, selectByName st.table m = some j →
      selectByName (dbResolve st n).1.table m = some j) := by
  obtain ⟨i, hsel, hmem⟩ := select_insertIfAbsent_self hw.1 n
  have hdb : dbResolve st n =
      (⟨insertIfAbsent st.table n, (n, i) :: st.cache⟩, some i) := by
    unfold dbResolve
    rw [hsel]
  rw [hdb]
  refine ⟨⟨insertIfAbsent_wf hw.1 n, ?_⟩, ⟨i, rfl, hsel⟩, ?_⟩
  · intro e he
    rcases List.mem_cons.mp he with rfl | hold
    · exact hmem
    · exact insertIfAbsent_rows_mono (hw.2 e hold) n
  · intro m j hj
    exact select_insertIfAbsent_mono hj n

theorem getOrCreate_step (st : GocState) (n : String) (hw : st.wf) :
    (getOrCreate st n).1.wf ∧
    (∃ i, (getOrCreate st n).2 = some i ∧
      selectByName (getOrCreate st n).1.table n = some i) ∧
    (∀ m j, selectByName st.table m = some j →
      selectByName (getOrCreate st n).1.table m = some j) := by
  unfold getOrCreate
  split
  · rename_i i hprobe
    split
    · exact dbResolve_step st n hw
    · obtain ⟨e, hefind, he2⟩ :
          ∃ e, st.cache.find? (fun e => e.1 = n) = some e ∧ e.2 = i := by
        rcases hfind : st.cache.find? (fun e => e.1 = n) with _ | e
        · rw [hfind] at hprobe
          simp at hprobe
        · rw [hfind] at hprobe
          simp at hprobe
          exact ⟨e, hfind, hprobe⟩
      have hmem := List.mem_of_find?_eq_some hefind
      have hname : e.1 = n := by simpa using List.find?_some hefind
      have hrow := hw.2 e hmem
      rw [hname, he2] at hrow
      exact ⟨hw, ⟨i, rfl, select_of_mem hw.1 hrow⟩, fun m j hj => hj⟩
  · exact dbResolve_step st n hw

theorem filter_name_le_one {β : Type} [DecidableEq β] (f : Nat × String → β)
    (a : β) : ∀ l : List (Nat × String), (l.map f).Nodup →
      (l.filter (fun x => f x = a)).length ≤ 1 := by
  intro l
  induction l with
  | nil => intro _; simp
  | cons x xs ih =>
    intro hnd
    rw [List.map_cons, List.nodup_cons] at hnd
    by_cases hfx : f x = a
    · rw [List.filter_cons_of_pos (by simp [hfx])]
      have hempty : xs.filter (fun y => f y = a) = [] := by
        rw [List.filter_eq_nil_iff]
        intro y hy
        simp only [decide_eq_true_eq]
        intro hya
        exact hnd.1 (List.mem_map.mpr ⟨y, hy, by rw [hya, hfx]⟩)
      rw [hempty]
      simp
    · rw [List.filter_cons_of_neg (by simp [hfx])]
      exact ih hnd.2

theorem goc_fold_inv (names : List String) :
    ∀ (st : GocState) (outs : List (String × Option Nat)),
      st.wf →
      (∀ e ∈ outs, ∃ i, e.2 = some i ∧ selectByName st.table e.1 = some i) →
      (names.foldl
          (fun acc n =>
            ((getOrCreate acc.1 n).1, acc.2 ++ [(n, (getOrCreate acc.1 n).2)]))
          (st, outs)).1.wf ∧
      (∀ e ∈ (names.foldl
          (fun acc n =>
            ((getOrCreate acc.1 n).1, acc.2 ++ [(n, (getOrCreate acc.1 n).2)]))
          (st, outs)).2,
        ∃ i, e.2 = some i ∧
          selectByName (names.foldl
            (fun acc n =>
              ((getOrCreate acc.1 n).1, acc.2 ++ [(n, (getOrCreate acc.1 n).2)]))
            (st, outs)).1.table e.1 = some i) := by
  induction names with
  | nil => intro st outs hw hout; exact ⟨hw, hout⟩
  | cons n names ih =>
    intro st outs hw hout
    rw [List.foldl_cons]
    obtain ⟨hw2, ⟨i, hres, hsel⟩, hpres⟩ := getOrCreate_step st n hw
    refine ih (getOrCreate st n).1 (outs ++ [(n, (getOrCreate st n).2)]) hw2 ?_
    intro e he
    rcases List.mem_append.mp he with hold | hnew
    · obtain ⟨j, hj1, hj2⟩ := hout e hold
      exact ⟨j, hj1, hpres e.1 j hj2⟩
    · rw [List.mem_singleton] at hnew
      rw [hnew]
      exact ⟨i, hres, hsel⟩

/-- C7: resolving `(scope, name)` pairs through the get-or-create operations
creates the underlying row at most once (the final table holds at most one
row per name), every caller resolving the same name receives the same id,
that id is exactly what select-by-name returns against the final table, and
the resolved id is never null after the insert-if-absent plus
select-by-name sequence. -/
theorem get_or_create_idempotent (st : GocState) (names : List String)
    (h : st.wf) :
    (getOrCreateAll st names).1.wf ∧
    (∀ e ∈ (getOrCreateAll st names).2, e.2 ≠ none) ∧
    (∀ e₁ ∈ (getOrCreateAll st names).2, ∀ e₂ ∈ (getOrCreateAll st names).2,
      e₁.1 = e₂.1 → e₁.2 = e₂.2) ∧
    (∀ n, ((getOrCreateAll st names).1.table.rows.filter
      (fun r => r.2 = n)).length ≤ 1) ∧
    (∀ e ∈ (getOrCreateAll st names).2,
      e.2 = selectByName (getOrCreateAll st names).1.table e.1) := by
  have hinv := goc_fold_inv names st [] h (by intro e he; cases he)
  rw [getOrCreateAll]
  refine ⟨hinv.1, ?_, ?_, ?_, ?_⟩
  · intro e he
    obtain ⟨i, hi, _⟩ := hinv.2 e he
    rw [hi]
    exact Option.some_ne_none i
  · intro e₁ he₁ e₂ he₂ hname
    obtain ⟨i₁, hi₁, hs₁⟩ := hinv.2 e₁ he₁
    obtain ⟨i₂, hi₂, hs₂⟩ := hinv.2 e₂ he₂
    rw [hname] at hs₁
    rw [hs₂] at hs₁
    rw [hi₁, hi₂, Option.some.inj hs₁]
  · intro n
    exact filter_name_le_one (fun r => r.2) n _ hinv.1.1.1
  · intro e he
    obtain ⟨i, hi, hs⟩ := hinv.2 e he
    rw [hi, hs]

/-- Witness for C7: resolving the names `a`, `b`, `a` against an empty store
leaves at most one row named `a`. -/
theorem get_or_create_idempotent_witness :
    ((getOrCreateAll ⟨⟨[], 1⟩, []⟩ ["a", "b", "a"]).1.table.rows.filter
      (fun r => r.2 = "a")).length ≤ 1 :=
  (get_or_create_idempotent ⟨⟨[], 1⟩, []⟩ ["a", "b", "a"]
    (by simp [GocState.wf, NameTable.wf])).2.2.2.1 "a"

/-! ## C6: complete=true filtering in plot_metrics -/

theorem foldrMax_le {l : List Nat} {a : Nat} (h : a ∈ l) : a ≤ l.foldr max 0 := by
  induction l with
  | nil => cases h
  | cons x xs ih =>
    rw [List.foldr_cons]
    rcases List.mem_cons.mp h with rfl | hmem
    · exact le_max_left a _
    · exact le_trans (ih hmem) (le_max_right x _)

theorem foldrMax_mem (l : List Nat) : l.foldr max 0 = 0 ∨ l.foldr max 0 ∈ l := by
  induction l with
  | nil => left; rfl
  | cons x xs ih =>
    rw [List.foldr_cons]
    rcases max_choice x (xs.foldr max 0) with hm | hm
    · rw [hm]
      right
      exact List.mem_cons_self x xs
    · rw [hm]
      rcases ih with h0 | hmem
      · left; exact h0
      · right; exact List.mem_cons_of_mem x hmem

theorem le_maxBin {df : List (Nat × Nat)} {r : Nat × Nat} (h : r ∈ df) :
    r.2 ≤ maxBin df r.1 := by
  apply foldrMax_le
  rw [List.mem_map]
  exact ⟨r, List.mem_filter.mpr ⟨h, by simp⟩, rfl⟩

theorem maxBin_attained {df : List (Nat × Nat)} {rid : Nat}
    (h : 0 < maxBin df rid) :
    ∃ q ∈ df, q.1 = rid ∧ q.2 = maxBin df rid := by
  rcases foldrMax_mem ((df.filter (fun r => r.1 = rid)).map (fun r => r.2)) with
    h0 | hmem
  · rw [maxBin] at h
    rw [h0] at h
    exact absurd h (lt_irrefl 0)
  · rw [List.mem_map] at hmem
    obtain ⟨q, hq, hq2⟩ := hmem
    have hqdf := List.mem_filter.mp hq
    exact ⟨q, hqdf.1, by simpa using hqdf.2, hq2⟩

theorem nodup_subset_length_le {α : Type} [DecidableEq α] {l1 l2 : List α}
    (h : l1.Nodup) (hs : l1 ⊆ l2) : l1.length ≤ l2.length := by
  calc l1.length = l1.toFinset.card := (List.toFinset_card_of_nodup h).symm
    _ ≤ l2.toFinset.card := Finset.card_le_card (by
        intro x hx
        simp only [List.mem_toFinset] at hx ⊢
        exact hs hx)
    _ ≤ l2.length := l2.toFinset_card_le

/-- C6: with `complete=true`, the row holding the maximum bin of each run is
removed before cross-run aggregation (a row survives iff its run has a row
with a strictly larger bin; the dropped row is the per-run maximum), the
contribution count of every `(group, bin)` cell never exceeds the group's
total run count, and a cell survives the final filter iff every run of its
group contributed to it (`runs = total_runs`, i.e. cells with
`runs < total_runs` are exactly the removed ones). -/
theorem plot_metrics_complete (dfBinned : List (Nat × Nat))
    (runsDf : List (Nat × String)) (hnd : dfBinned.Nodup)
    (_hrd : (runsDf.map (fun r => r.1)).Nodup) :
    (∀ r ∈ dfBinned,
      (r ∈ dropLastBins dfBinned ↔ ∃ q ∈ dfBinned, q.1 = r.1 ∧ r.2 < q.2)) ∧
    (∀ r ∈ dfBinned, r ∉ dropLastBins dfBinned → r.2 = maxBin dfBinned r.1) ∧
    (∀ g b, runsCount runsDf (dropLastBins dfBinned) g b ≤ totalRuns runsDf g) ∧
    (∀ g b, ((g, b) ∈ completeKeys runsDf dfBinned ↔
      ((g, b) ∈ aggKeys runsDf (dropLastBins dfBinned) ∧
       runsCount runsDf (dropLastBins dfBinned) g b =
         totalRuns runsDf g))) := by
  refine ⟨?_, ?_, ?_, ?_⟩
  · intro r hr
    rw [dropLastBins, List.mem_filter]
    constructor
    · intro ⟨_, hne⟩
      simp only [decide_eq_true_eq] at hne
      have hlt : r.2 < maxBin dfBinned r.1 :=
        lt_of_le_of_ne (le_maxBin hr) hne
      obtain ⟨q, hq, hq1, hq2⟩ := maxBin_attained (lt_of_le_of_lt (Nat.zero_le _) hlt)
      exact ⟨q, hq, hq1, by rw [hq2]; exact hlt⟩
    · intro ⟨q, hq, hq1, hq2⟩
      refine ⟨hr, ?_⟩
      simp only [decide_eq_true_eq]
      intro heq
      have : q.2 ≤ maxBin dfBinned r.1 := by
        rw [← hq1]
        exact le_maxBin hq
      omega
  · intro r hr hnot
    rw [dropLastBins, List.mem_filter] at hnot
    push_neg at hnot
    have := hnot hr
    simpa using this
  · intro g b
    rw [runsCount, totalRuns]
    have hnd2 : (dropLastBins dfBinned).Nodup :=
      (List.filter_sublist dfBinned).nodup hnd
    set S := (dropLastBins dfBinned).filter
      (fun r => r.2 = b && groupOf runsDf r.1 = some g) with hS
    have hSnd : S.Nodup := (List.filter_sublist _).nodup hnd2
    have hSb : ∀ x ∈ S, x.2 = b ∧ groupOf runsDf x.1 = some g := by
      intro x hx
      have := (List.mem_filter.mp hx).2
      simpa using this
    have hmapnd : (S.map (fun r => r.1)).Nodup := by
      refine List.Nodup.map_on ?_ hSnd
      intro x hx y hy hxy
      have hxb := (hSb x hx).1
      have hyb := (hSb y hy).1
      exact Prod.ext hxy (by rw [hxb, hyb])
    have hsub : (S.map (fun r => r.1)) ⊆
        ((runsDf.filter (fun r => r.2 = g)).map (fun r => r.1)) := by
      intro rid hrid
      rw [List.mem_map] at hrid
      obtain ⟨x, hx, hx1⟩ := hrid
      have hg := (hSb x hx).2
      rw [groupOf] at hg
      rcases hfind : runsDf.find? (fun r => r.1 = x.1) with _ | e
      · rw [hfind] at hg
        simp at hg
      · rw [hfind] at hg
        simp at hg
        have he1 : e.1 = x.1 := by simpa using List.find?_some hfind
        rw [List.mem_map]
        refine ⟨e, List.mem_filter.mpr ⟨List.mem_of_find?_eq_some hfind, by simp [hg]⟩, ?_⟩
        rw [he1, hx1]
    calc S.length = (S.map (fun r => r.1)).length := (List.length_map _ _).symm
      _ ≤ ((runsDf.filter (fun r => r.2 = g)).map (fun r => r.1)).length :=
          nodup_subset_length_le hmapnd hsub
      _ = (runsDf.filter (fun r => r.2 = g)).length := List.length_map _ _
  · intro g b
    rw [completeKeys]
    simp only [List.mem_filter, decide_eq_true_eq]

/-! ## msgpack codec lemmas -/

theorem beBytes_length : ∀ (k n : Nat), (beBytes k n).length = k := by
  intro k
  induction k with
  | zero => intro n; rfl
  | succ k ih =>
    intro n
    simp only [beBytes, List.length_cons, ih]

theorem readBE_beBytes : ∀ (k n : Nat) (rest : List Nat), n < 256 ^ k →
    readBE k (beBytes k n ++ rest) = some (n, rest) := by
  intro k
  induction k with
  | zero =>
    intro n rest hn
    have : n = 0 := by simpa using hn
    subst this
    rfl
  | succ k ih =>
    intro n rest hn
    have hpow : 0 < 256 ^ k := Nat.pos_pow_of_pos k (by norm_num)
    show readBE (k + 1) ((n / 256 ^ k :: beBytes k (n % 256 ^ k)) ++ rest) = _
    rw [List.cons_append]
    show (readBE k (beBytes k (n % 256 ^ k) ++ rest)).map
      (fun r => (n / 256 ^ k * 256 ^ k + r.1, r.2)) = _
    rw [ih (n % 256 ^ k) rest (Nat.mod_lt n hpow)]
    simp only [Option.map_some']
    have hdm : n / 256 ^ k * 256 ^ k + n % 256 ^ k = n := by
      rw [Nat.mul_comm]
      exact Nat.div_add_mod n (256 ^ k)
    rw [hdm]

theorem packStrBytes_length_pos {s bs : List Nat}
    (h : packStrBytes s = some bs) : 1 ≤ bs.length := by
  unfold packStrBytes at h
  split_ifs at h <;> simp only [Option.some.injEq] at h <;> subst h <;> simp

theorem packValue_length_pos : ∀ {v : MsgValue} {bs : List Nat},
    packValue v = some bs → 1 ≤ bs.length := by
  intro v bs h
  match v with
  | .nil =>
    simp only [packValue, Option.some.injEq] at h
    subst h; simp
  | .int n =>
    simp only [packValue, packInt] at h
    split_ifs at h <;> simp only [Option.some.injEq] at h <;> subst h <;> simp
  | .float bits =>
    simp only [packValue] at h
    split_ifs at h <;> simp only [Option.some.injEq] at h
    subst h; simp
  | .str s =>
    simp only [packValue] at h
    exact packStrBytes_length_pos h
  | .bin b =>
    simp only [packValue, packBinBytes] at h
    split_ifs at h <;> simp only [Option.some.injEq] at h <;> subst h <;> simp
  | .arr vs =>
    simp only [packValue] at h
    rcases hh : arrHeader vs.length with _ | hdr <;> rw [hh] at h
    · simp at h
    · rcases hb : packElems vs with _ | body <;> rw [hb] at h
      · simp at h
      · simp at h
        subst h
        have : 1 ≤ hdr.length := by
          unfold arrHeader at hh
          split_ifs at hh <;> simp only [Option.some.injEq] at hh <;>
            subst hh <;> simp
        simp only [List.length_append]
        omega
  | .map kvs =>
    simp only [packValue] at h
    rcases hh : mapHeader kvs.length with _ | hdr <;> rw [hh] at h
    · simp at h
    · rcases hb : packEntries kvs with _ | body <;> rw [hb] at h
      · simp at h
      · simp at h
        subst h
        have : 1 ≤ hdr.length := by
          unfold mapHeader at hh
          split_ifs at hh <;> simp only [Option.some.injEq] at hh <;>
            subst hh <;> simp
        simp only [List.length_append]
        omega

theorem parseVal_packStr {s bs : List Nat} (h : packStrBytes s = some bs)
    (f : Nat) (rest : List Nat) :
    parseVal (f + 1) (bs ++ rest) = some (.str s, rest) := by
  unfold packStrBytes at h
  split_ifs at h with h1 h2 h3 h4 <;> simp only [Option.some.injEq] at h <;>
    subst h
  · rw [List.cons_append]
    simp only [parseVal]
    rw [if_neg (by omega), if_neg (by omega), if_neg (by omega),
      if_pos (by omega)]
    simp only [Nat.add_sub_cancel_left]
    rw [if_pos (by simp)]
    rw [List.take_left' rfl, List.drop_left' rfl]
  · rw [List.cons_append, List.cons_append]
    simp only [parseVal]
    norm_num
    rw [show readBE 1 (s.length :: (s ++ rest)) = some (s.length, s ++ rest) by
      simp [readBE], Option.some_bind]
    rw [if_pos (by simp)]
    rw [List.take_left' rfl, List.drop_left' rfl]
  · rw [List.cons_append, List.append_assoc]
    simp only [parseVal]
    norm_num
    rw [readBE_beBytes 2 s.length (s ++ rest) (by omega), Option.some_bind]
    rw [if_pos (by simp)]
    rw [List.take_left' rfl, List.drop_left' rfl]
  · rw [List.cons_append, List.append_assoc]
    simp only [parseVal]
    norm_num
    rw [readBE_beBytes 4 s.length (s ++ rest) (by omega), Option.some_bind]
    rw [if_pos (by simp)]
    rw [List.take_left' rfl, List.drop_left' rfl]

theorem parseVal_packBin {b bs : List Nat} (h : packBinBytes b = some bs)
    (f : Nat) (rest : List Nat) :
    parseVal (f + 1) (bs ++ rest) = some (.bin b, rest) := by
  unfold packBinBytes at h
  split_ifs at h with h1 h2 h3 <;> simp only [Option.some.injEq] at h <;>
    subst h
  · rw [List.cons_append, List.cons_append]
    simp only [parseVal]
    norm_num
    rw [show readBE 1 (b.length :: (b ++ rest)) = some (b.length, b ++ rest) by
      simp [readBE], Option.some_bind]
    rw [if_pos (by simp)]
    rw [List.take_left' rfl, List.drop_left' rfl]
  · rw [List.cons_append, List.append_assoc]
    simp only [parseVal]
    norm_num
    rw [readBE_beBytes 2 b.length (b ++ rest) (by omega), Option.some_bind]
    rw [if_pos (by simp)]
    rw [List.take_left' rfl, List.drop_left' rfl]
  · rw [List.cons_append, List.append_assoc]
    simp only [parseVal]
    norm_num
    rw [readBE_beBytes 4 b.length (b ++ rest) (by omega), Option.some_bind]
    rw [if_pos (by simp)]
    rw [List.take_left' rfl, List.drop_left' rfl]

set_option maxHeartbeats 2000000 in
theorem parseVal_packInt {n : Int} {bs : List Nat} (h : packInt n = some bs)
    (f : Nat) (rest : List Nat) :
    parseVal (f + 1) (bs ++ rest) = some (.int n, rest) := by
  unfold packInt at h
  split_ifs at h with h0 h1 h2 h3 h4 h5 h6 h7 h8 h9 <;>
    simp only [Option.some.injEq] at h <;> subst h
  · rw [List.cons_append]
    simp only [parseVal]
    rw [if_pos (by omega), Int.toNat_of_nonneg h0, List.nil_append]
  · rw [List.cons_append, List.cons_append]
    simp only [parseVal]
    norm_num
    exact ⟨n.toNat, by simp [readBE], Int.toNat_of_nonneg h0⟩
  · rw [List.cons_append]
    simp only [parseVal]
    norm_num
    exact ⟨n.toNat, readBE_beBytes 2 n.toNat rest (by omega),
      Int.toNat_of_nonneg h0⟩
  · rw [List.cons_append]
    simp only [parseVal]
    norm_num
    exact ⟨n.toNat, readBE_beBytes 4 n.toNat rest (by omega),
      Int.toNat_of_nonneg h0⟩
  · rw [List.cons_append]
    simp only [parseVal]
    norm_num
    exact ⟨n.toNat, readBE_beBytes 8 n.toNat rest (by omega),
      Int.toNat_of_nonneg h0⟩
  · have hlt : n < 0 := by omega
    interval_cases n <;> rfl
  · rw [List.cons_append, List.cons_append]
    simp only [parseVal]
    norm_num
    refine ⟨(n + 256).toNat, by simp [readBE], ?_⟩
    unfold sgn
    rw [if_neg (by omega)]
    omega
  · rw [List.cons_append]
    simp only [parseVal]
    norm_num
    refine ⟨(n + 65536).toNat, readBE_beBytes 2 (n + 65536).toNat rest (by omega), ?_⟩
    unfold sgn
    rw [if_neg (by omega)]
    omega
  · rw [List.cons_append]
    simp only [parseVal]
    norm_num
    refine ⟨(n + 4294967296).toNat,
      readBE_beBytes 4 (n + 4294967296).toNat rest (by omega), ?_⟩
    unfold sgn
    rw [if_neg (by omega)]
    omega
  · rw [List.cons_append]
    simp only [parseVal]
    norm_num
    refine ⟨(n + 18446744073709551616).toNat,
      readBE_beBytes 8 (n + 18446744073709551616).toNat rest (by omega), ?_⟩
    unfold sgn
    rw [if_neg (by omega)]
    omega

theorem parseVal_packFloat {bits : Nat} {bs : List Nat}
    (h : packValue (.float bits) = some bs) (f : Nat) (rest : List Nat) :
    parseVal (f + 1) (bs ++ rest) = some (.float bits, rest) := by
  simp only [packValue] at h
  split_ifs at h with h1
  simp only [Option.some.injEq] at h
  subst h
  rw [List.cons_append]
  simp only [parseVal]
  norm_num
  exact readBE_beBytes 8 bits rest (by omega)

theorem parseVal_nil (f : Nat) (rest : List Nat) :
    parseVal (f + 1) ([0xc0] ++ rest) = some (.nil, rest) := by
  rw [List.cons_append, List.nil_append]
  simp only [parseVal]
  norm_num

theorem parseElems_succ (fuel n : Nat) (bs : List Nat) :
    parseElems (fuel + 1) (n + 1) bs = (do
      let r ← parseVal fuel bs
      let q ← parseElems fuel n r.2
      pure (r.1 :: q.1, q.2)) := rfl

theorem parseEntries_succ (fuel n : Nat) (bs : List Nat) :
    parseEntries (fuel + 1) (n + 1) bs = (do
      let rk ← parseVal fuel bs
      match rk.1 with
      | .str k => do
          let rv ← parseVal fuel rk.2
          let q ← parseEntries fuel n rv.2
          pure ((k, rv.1) :: q.1, q.2)
      | _ => none) := rfl

theorem parseElems_back : ∀ (vs : List MsgValue) (body : List Nat),
    packElems vs = some body → (∀ v ∈ vs, ParsesBack v) →
    ∀ fuel rest, 2 * body.length ≤ fuel →
      parseElems fuel vs.length (body ++ rest) = some (vs, rest) := by
  intro vs
  induction vs with
  | nil =>
    intro body h _ fuel rest _
    simp only [packElems, Option.some.injEq] at h
    subst h
    rw [List.nil_append]
    cases fuel <;> rfl
  | cons v vs ih =>
    intro body h hall fuel rest hfuel
    simp only [packElems] at h
    rcases he : packValue v with _ | e <;> rw [he] at h
    · simp at h
    rcases hes : packElems vs with _ | es <;> rw [hes] at h
    · simp at h
    simp only [Option.bind_eq_bind, Option.some_bind, Option.pure_def, Option.some.injEq] at h
    subst h
    have hepos : 1 ≤ e.length := packValue_length_pos he
    rcases fuel with _ | f
    · exfalso
      simp only [List.length_append] at hfuel
      omega
    simp only [List.length_cons, List.append_assoc]
    rw [parseElems_succ]
    rw [hall v (List.mem_cons_self v vs) e he f (es ++ rest)
      (by simp only [List.length_append] at hfuel; omega)]
    simp only [Option.bind_eq_bind, Option.some_bind]
    rw [ih es hes (fun w hw => hall w (List.mem_cons_of_mem v hw)) f rest
      (by simp only [List.length_append] at hfuel; omega)]
    rfl

theorem parseEntries_back : ∀ (kvs : List (List Nat × MsgValue)) (body : List Nat),
    packEntries kvs = some body → (∀ kv ∈ kvs, ParsesBack kv.2) →
    ∀ fuel rest, 2 * body.length ≤ fuel →
      parseEntries fuel kvs.length (body ++ rest) = some (kvs, rest) := by
  intro kvs
  induction kvs with
  | nil =>
    intro body h _ fuel rest _
    simp only [packEntries, Option.some.injEq] at h
    subst h
    rw [List.nil_append]
    cases fuel <;> rfl
  | cons kv kvs ih =>
    intro body h hall fuel rest hfuel
    simp only [packEntries] at h
    rcases hk : packStrBytes kv.1 with _ | kb <;> rw [hk] at h
    · simp at h
    rcases he : packValue kv.2 with _ | vb <;> rw [he] at h
    · simp at h
    rcases hes : packEntries kvs with _ | es <;> rw [hes] at h
    · simp at h
    simp only [Option.bind_eq_bind, Option.some_bind, Option.pure_def, Option.some.injEq] at h
    subst h
    have hkpos : 1 ≤ kb.length := packStrBytes_length_pos hk
    have hvpos : 1 ≤ vb.length := packValue_length_pos he
    rcases fuel with _ | f
    · exfalso
      simp only [List.length_append] at hfuel
      omega
    rcases f with _ | f2
    · exfalso
      simp only [List.length_append] at hfuel
      omega
    simp only [List.length_cons, List.append_assoc]
    rw [parseEntries_succ]
    rw [parseVal_packStr hk f2 (vb ++ (es ++ rest))]
    simp only [Option.bind_eq_bind, Option.some_bind]
    rw [hall kv (List.mem_cons_self kv kvs) vb he (f2 + 1) (es ++ rest)
      (by simp only [List.length_append] at hfuel; omega)]
    simp only [Option.some_bind]
    rw [ih es hes (fun w hw => hall w (List.mem_cons_of_mem kv hw)) (f2 + 1) rest
      (by simp only [List.length_append] at hfuel; omega)]
    rfl

theorem parsesBack_all : ∀ v : MsgValue, ParsesBack v := by
  suffices h : ∀ (N : Nat) (v : MsgValue), sizeOf v ≤ N → ParsesBack v by
    intro v
    exact h (sizeOf v) v le_rfl
  intro N
  induction N with
  | zero =>
    intro v hv
    exfalso
    cases v <;> simp at hv
  | succ N ih =>
    intro v hv
    match v with
    | .nil =>
      intro bs hp fuel rest hfuel
      simp only [packValue, Option.some.injEq] at hp
      subst hp
      rcases fuel with _ | f
      · exfalso; simp at hfuel
      exact parseVal_nil f rest
    | .int n =>
      intro bs hp fuel rest hfuel
      simp only [packValue] at hp
      have h1 := packValue_length_pos (v := .int n) (by simpa [packValue] using hp)
      rcases fuel with _ | f
      · exfalso; omega
      exact parseVal_packInt hp f rest
    | .float bits =>
      intro bs hp fuel rest hfuel
      have h1 := packValue_length_pos (v := .float bits) hp
      rcases fuel with _ | f
      · exfalso; omega
      exact parseVal_packFloat hp f rest
    | .str s =>
      intro bs hp fuel rest hfuel
      simp only [packValue] at hp
      have h1 := packStrBytes_length_pos hp
      rcases fuel with _ | f
      · exfalso; omega
      exact parseVal_packStr hp f rest
    | .bin b =>
      intro bs hp fuel rest hfuel
      simp only [packValue] at hp
      have h1 := packValue_length_pos (v := .bin b) (by simpa [packValue] using hp)
      rcases fuel with _ | f
      · exfalso; omega
      exact parseVal_packBin hp f rest
    | .arr vs =>
      intro bs hp fuel rest hfuel
      simp only [packValue] at hp
      rcases hh : arrHeader vs.length with _ | hdr <;> rw [hh] at hp
      · simp at hp
      rcases hb : packElems vs with _ | body <;> rw [hb] at hp
      · simp at hp
      simp at hp
      subst hp
      have hall : ∀ w ∈ vs, ParsesBack w := by
        intro w hw
        apply ih
        have h1 : sizeOf w < sizeOf vs := List.sizeOf_lt_of_mem hw
        have h2 : sizeOf (MsgValue.arr vs) = 1 + sizeOf vs := by simp
        omega
      unfold arrHeader at hh
      split_ifs at hh with g1 g2 g3 <;> simp only [Option.some.injEq] at hh <;>
        subst hh
      · rcases fuel with _ | f
        · exfalso
          simp only [List.length_append, List.length_cons,
            List.length_nil] at hfuel
          omega
        simp only [List.cons_append, List.nil_append]
        simp only [parseVal]
        rw [if_neg (by omega), if_neg (by omega), if_pos (by omega)]
        simp only [Nat.add_sub_cancel_left]
        rw [parseElems_back vs body hb hall f rest
          (by simp only [List.length_append, List.length_cons,
            List.length_nil] at hfuel; omega)]
        rfl
      · rcases fuel with _ | f
        · exfalso
          simp only [List.length_append, List.length_cons,
            beBytes_length] at hfuel
          omega
        rw [List.cons_append, List.cons_append, List.append_assoc]
        simp only [parseVal]
        norm_num
        rw [readBE_beBytes 2 vs.length (body ++ rest) (by omega),
          Option.some_bind]
        rw [parseElems_back vs body hb hall f rest
          (by simp only [List.length_append, List.length_cons,
            beBytes_length] at hfuel; omega)]
        rfl
      · rcases fuel with _ | f
        · exfalso
          simp only [List.length_append, List.length_cons,
            beBytes_length] at hfuel
          omega
        rw [List.cons_append, List.cons_append, List.append_assoc]
        simp only [parseVal]
        norm_num
        rw [readBE_beBytes 4 vs.length (body ++ rest) (by omega),
          Option.some_bind]
        rw [parseElems_back vs body hb hall f rest
          (by simp only [List.length_append, List.length_cons,
            beBytes_length] at hfuel; omega)]
        rfl
    | .map kvs =>
      intro bs hp fuel rest hfuel
      simp only [packValue] at hp
      rcases hh : mapHeader kvs.length with _ | hdr <;> rw [hh] at hp
      · simp at hp
      rcases hb : packEntries kvs with _ | body <;> rw [hb] at hp
      · simp at hp
      simp at hp
      subst hp
      have hall : ∀ kv ∈ kvs, ParsesBack kv.2 := by
        intro kv hkv
        apply ih
        have h1 : sizeOf kv < sizeOf kvs := List.sizeOf_lt_of_mem hkv
        have h2 : sizeOf (MsgValue.map kvs) = 1 + sizeOf kvs := by simp
        have h3 : sizeOf kv = 1 + sizeOf kv.1 + sizeOf kv.2 := by
          obtain ⟨a, b⟩ := kv
          simp
        omega
      unfold mapHeader at hh
      split_ifs at hh with g1 g2 g3 <;> simp only [Option.some.injEq] at hh <;>
        subst hh
      · rcases fuel with _ | f
        · exfalso
          simp only [List.length_append, List.length_cons,
            List.length_nil] at hfuel
          omega
        simp only [List.cons_append, List.nil_append]
        simp only [parseVal]
        rw [if_neg (by omega), if_pos (by omega)]
        simp only [Nat.add_sub_cancel_left]
        rw [parseEntries_back kvs body hb hall f rest
          (by simp only [List.length_append, List.length_cons,
            List.length_nil] at hfuel; omega)]
        rfl
      · rcases fuel with _ | f
        · exfalso
          simp only [List.length_append, List.length_cons,
            beBytes_length] at hfuel
          omega
        rw [List.cons_append, List.cons_append, List.append_assoc]
        simp only [parseVal]
        norm_num
        rw [readBE_beBytes 2 kvs.length (body ++ rest) (by omega),
          Option.some_bind]
        rw [parseEntries_back kvs body hb hall f rest
          (by simp only [List.length_append, List.length_cons,
            beBytes_length] at hfuel; omega)]
        rfl
      · rcases fuel with _ | f
        · exfalso
          simp only [List.length_append, List.length_cons,
            beBytes_length] at hfuel
          omega
        rw [List.cons_append, List.cons_append, List.append_assoc]
        simp only [parseVal]
        norm_num
        rw [readBE_beBytes 4 kvs.length (body ++ rest) (by omega),
          Option.some_bind]
        rw [parseEntries_back kvs body hb hall f rest
          (by simp only [List.length_append, List.length_cons,
            beBytes_length] at hfuel; omega)]
        rfl

theorem unpackb_packValue {v : MsgValue} {bs : List Nat}
    (h : packValue v = some bs) : unpackb bs = some v := by
  have hrt := parsesBack_all v bs h (2 * bs.length) [] (by omega)
  rw [List.append_nil] at hrt
  rw [unpackb, hrt]

theorem lookupKey_cons_self (k : List Nat) (v : MsgValue)
    (kvs : List (List Nat × MsgValue)) :
    lookupKey ((k, v) :: kvs) k = some v := by
  unfold lookupKey
  rw [List.find?_cons_of_pos _ (by simp)]
  rfl

theorem lookupKey_cons_ne {k k' : List Nat} (h : k ≠ k') (v : MsgValue)
    (kvs : List (List Nat × MsgValue)) :
    lookupKey ((k, v) :: kvs) k' = lookupKey kvs k' := by
  unfold lookupKey
  rw [List.find?_cons_of_neg _ (by simp; exact h)]

theorem shape_mapM : ∀ l : List Nat,
    (l.map (fun d => MsgValue.int (Int.ofNat d))).mapM (fun dv =>
      match dv with
      | MsgValue.int dn => if 0 ≤ dn then some dn.toNat else none
      | _ => none) = some l := by
  intro l
  induction l with
  | nil => rfl
  | cons d l ih =>
    rw [List.map_cons, List.mapM_cons, ih]
    simp [Int.toNat_natCast]

theorem decodeNp_encodeNp {a : NDArray} {isz : Nat}
    (h1 : itemsize a.dtypeStr = some isz) (h2 : 0 < isz)
    (h3 : a.data.length = isz * prodDims a.shape) :
    decodeNp (encodeNp a) = some a := by
  dsimp only [decodeNp, encodeNp]
  rw [if_pos (by simp)]
  rw [lookupKey_cons_self]
  dsimp only
  rw [shape_mapM a.shape]
  simp only [Option.bind_eq_bind, Option.some_bind]
  rw [h1]
  simp only [Option.some_bind]
  rw [if_pos ⟨h2, h3⟩]
  rfl

theorem extractData_mapM : ∀ data : List (List Nat × NDArray),
    (∀ kv ∈ data, decodeNp (encodeNp kv.2) = some kv.2) →
    (data.map (fun kv => (kv.1, encodeNp kv.2))).mapM
      (fun kv => (decodeNp kv.2).map (fun a => (kv.1, a))) = some data := by
  intro data
  induction data with
  | nil => intro _; rfl
  | cons kv data ih =>
    intro h
    rw [List.map_cons, List.mapM_cons]
    rw [show (decodeNp (kv.1, encodeNp kv.2).2).map
      (fun a => ((kv.1, encodeNp kv.2).1, a)) = some (kv.1, kv.2) by
        rw [show (kv.1, encodeNp kv.2).2 = encodeNp kv.2 from rfl,
          h kv (List.mem_cons_self kv data)]
        rfl]
    rw [ih (fun w hw => h w (List.mem_cons_of_mem kv hw))]
    rfl

theorem extractData_encode {data : List (List Nat × NDArray)}
    (h1 : (data.map (fun kv => kv.1)).Nodup)
    (h2 : keyNp ∉ data.map (fun kv => kv.1))
    (h3 : ∀ kv ∈ data, decodeNp (encodeNp kv.2) = some kv.2) :
    extractData (.map (data.map (fun kv => (kv.1, encodeNp kv.2)))) =
      some data := by
  dsimp only [extractData]
  have hkeys : (data.map (fun kv => (kv.1, encodeNp kv.2))).map
      (fun kv => kv.1) = data.map (fun kv => kv.1) := by
    rw [List.map_map]
    rfl
  rw [if_pos (by rw [hkeys]; simp [h1, h2])]
  exact extractData_mapM data h3

theorem msgToData_asMsgValue {m : DataMessage} (hwf : m.wf) :
    msgToData m.asMsgValue = some m := by
  obtain ⟨hn1, hn2, hn3⟩ := hwf
  have harr : ∀ kv ∈ m.data, decodeNp (encodeNp kv.2) = some kv.2 := by
    intro kv hkv
    obtain ⟨isz, hi1, hi2, hi3⟩ := hn3 kv hkv
    exact decodeNp_encodeNp hi1 hi2 hi3
  dsimp only [msgToData, DataMessage.asMsgValue]
  rw [if_pos (by simp; decide)]
  rw [show legacyPatch
      [(keyProject, .str m.project), (keyUser, .str m.user),
       (keyExp, .str m.exp), (keyRun, .str m.run), (keyStep, .int m.step),
       (keyTimestamp, .float m.timestamp),
       (keyData, .map (m.data.map (fun kv => (kv.1, encodeNp kv.2))))] =
      some [(keyProject, .str m.project), (keyUser, .str m.user),
       (keyExp, .str m.exp), (keyRun, .str m.run), (keyStep, .int m.step),
       (keyTimestamp, .float m.timestamp),
       (keyData, .map (m.data.map (fun kv => (kv.1, encodeNp kv.2))))] by
    unfold legacyPatch
    rw [if_pos (by simp)]]
  simp only [Option.bind_eq_bind, Option.some_bind]
  rw [lookupKey_cons_self]
  rw [lookupKey_cons_ne (by decide), lookupKey_cons_self]
  rw [lookupKey_cons_ne (by decide), lookupKey_cons_ne (by decide),
    lookupKey_cons_self]
  rw [lookupKey_cons_ne (by decide), lookupKey_cons_ne (by decide),
    lookupKey_cons_ne (by decide), lookupKey_cons_self]
  rw [lookupKey_cons_ne (by decide), lookupKey_cons_ne (by decide),
    lookupKey_cons_ne (by decide), lookupKey_cons_ne (by decide),
    lookupKey_cons_self]
  rw [lookupKey_cons_ne (by decide), lookupKey_cons_ne (by decide),
    lookupKey_cons_ne (by decide), lookupKey_cons_ne (by decide),
    lookupKey_cons_ne (by decide), lookupKey_cons_self]
  rw [lookupKey_cons_ne (by decide), lookupKey_cons_ne (by decide),
    lookupKey_cons_ne (by decide), lookupKey_cons_ne (by decide),
    lookupKey_cons_ne (by decide), lookupKey_cons_ne (by decide),
    lookupKey_cons_self]
  dsimp only
  rw [if_pos (by simp [keysExactly])]
  rw [extractData_encode hn1 hn2 harr]
  rfl

theorem unpack_pack {m : DataMessage} (hwf : m.wf) {bs : List Nat}
    (hp : m.pack = some bs) : DataMessage.unpack bs = some m := by
  unfold DataMessage.unpack
  rw [unpackb_packValue hp, Option.some_bind]
  exact msgToData_asMsgValue hwf

theorem sampleMsg_wf : sampleMsg.wf := by
  refine ⟨by decide, by decide, ?_⟩
  intro kv hkv
  simp only [sampleMsg, List.mem_singleton] at hkv
  subst hkv
  exact ⟨4, by decide, by decide, by decide⟩

theorem wf_filter {m : DataMessage} (hwf : m.wf) :
    DataMessage.wf
      { m with data := m.data.filter (fun kv => kv.2.nbytes ≤ 10000) } := by
  obtain ⟨h1, h2, h3⟩ := hwf
  have hsub : List.Sublist
      (m.data.filter (fun kv => kv.2.nbytes ≤ 10000)) m.data :=
    List.filter_sublist _
  refine ⟨(hsub.map (fun kv => kv.1)).nodup h1, ?_, ?_⟩
  · intro hmem
    exact h2 ((hsub.map (fun kv => kv.1)).subset hmem)
  · intro kv hkv
    exact h3 kv (hsub.subset hkv)

/-! ## C5: pack/unpack roundtrip -/

/-- C5: for every well-formed data message, unpacking the packed buffer
yields a message equal to the original: the project, user, exp, run, step
and timestamp fields are preserved, and every tensor field comes back with
the same dtype string, shape and raw byte content. -/
theorem data_message_roundtrip (m : DataMessage) (hwf : m.wf) (bs : List Nat)
    (hp : m.pack = some bs) :
    DataMessage.unpack bs = some m ∧
    (∀ m2, DataMessage.unpack bs = some m2 →
      m2.project = m.project ∧ m2.user = m.user ∧ m2.exp = m.exp ∧
      m2.run = m.run ∧ m2.step = m.step ∧ m2.timestamp = m.timestamp ∧
      m2.data = m.data) := by
  have h1 := unpack_pack hwf hp
  refine ⟨h1, ?_⟩
  intro m2 h2
  rw [h1] at h2
  have := Option.some.inj h2
  subst this
  exact ⟨rfl, rfl, rfl, rfl, rfl, rfl, rfl⟩

/-- Witness for C5 on a concrete message carrying one float32 tensor. -/
theorem data_message_roundtrip_witness :
    DataMessage.unpack sampleBuf = some sampleMsg :=
  (data_message_roundtrip sampleMsg sampleMsg_wf sampleBuf (by rfl)).1

/-! ## C9: pack_safe below the size limit -/

/-- C9: whenever the packed encoding is within the size limit, `pack_safe`
returns exactly the bytes of `pack`, dropping nothing — the 10 KB per-field
threshold is never consulted on that path. -/
theorem pack_safe_within_limit (m : DataMessage) (maxSize : Nat)
    (buf : List Nat) (hp : m.pack = some buf) (hle : buf.length ≤ maxSize) :
    DataMessage.pack_safe m maxSize = some buf := by
  unfold DataMessage.pack_safe
  rw [hp]
  simp only [Option.bind_eq_bind, Option.some_bind]
  rw [if_neg (by omega)]
  rfl

/-- Witness for C9 at the default size limit. -/
theorem pack_safe_within_limit_witness :
    DataMessage.pack_safe sampleMsg defaultMaxSize = some sampleBuf :=
  pack_safe_within_limit sampleMsg defaultMaxSize sampleBuf (by rfl) (by decide)

/-! ## C4: pack_safe above the size limit -/

/-- C4: when the packed encoding exceeds the limit, `pack_safe` drops
exactly the data fields whose tensor payload exceeds 10 000 bytes — each
surviving field is kept whole, never truncated — re-encodes the remaining
message, and any buffer it returns is that re-encoding, within the limit,
and unpacks back to the reduced message; if the re-encoding is still
oversized the call fails (the assertion raises) instead of returning an
oversized or split buffer. -/
theorem pack_safe_oversized (m : DataMessage) (maxSize : Nat) (hwf : m.wf)
    (buf : List Nat) (hp : m.pack = some buf) (hbig : buf.length > maxSize) :
    (∀ kv ∈ m.data,
      (kv ∈ m.data.filter (fun kv => kv.2.nbytes ≤ 10000) ↔
        kv.2.nbytes ≤ 10000)) ∧
    (∀ buf2, DataMessage.pack_safe m maxSize = some buf2 →
      DataMessage.pack
          { m with data := m.data.filter (fun kv => kv.2.nbytes ≤ 10000) } =
        some buf2 ∧
      buf2.length ≤ maxSize ∧
      DataMessage.unpack buf2 =
        some { m with
          data := m.data.filter (fun kv => kv.2.nbytes ≤ 10000) }) ∧
    (∀ buf2,
      DataMessage.pack
          { m with data := m.data.filter (fun kv => kv.2.nbytes ≤ 10000) } =
        some buf2 →
      buf2.length > maxSize → DataMessage.pack_safe m maxSize = none) := by
  refine ⟨?_, ?_, ?_⟩
  · intro kv hkv
    simp [List.mem_filter, hkv]
  · intro buf2 hsafe
    unfold DataMessage.pack_safe at hsafe
    rw [hp] at hsafe
    simp only [Option.bind_eq_bind, Option.some_bind] at hsafe
    rw [if_pos hbig] at hsafe
    rcases hq : DataMessage.pack
        { m with data := m.data.filter (fun kv => kv.2.nbytes ≤ 10000) }
      with _ | b2 <;> rw [hq] at hsafe
    · simp at hsafe
    simp only [Option.some_bind] at hsafe
    by_cases hle : b2.length ≤ maxSize
    · rw [if_pos hle] at hsafe
      have hb : b2 = buf2 := by simpa using hsafe
      subst hb
      exact ⟨rfl, hle, unpack_pack (wf_filter hwf) hq⟩
    · rw [if_neg hle] at hsafe
      simp at hsafe
  · intro buf2 hq hgt
    unfold DataMessage.pack_safe
    rw [hp]
    simp only [Option.bind_eq_bind, Option.some_bind]
    rw [if_pos hbig, hq]
    simp only [Option.some_bind]
    rw [if_neg (by omega)]

/-- Witness for C4 with `max_size = 0`: the sample message exceeds the
limit, none of its fields passes the 10 KB bar for dropping, so the
re-encoded message is unchanged, still oversized, and `pack_safe` fails. -/
theorem pack_safe_oversized_witness :
    DataMessage.pack_safe sampleMsg 0 = none :=
  (pack_safe_oversized sampleMsg 0 sampleMsg_wf sampleBuf (by rfl)
    (by decide)).2.2 sampleBuf (by rfl) (by decide)

/-- Witness for C6 on a two-run, one-group frame: run 1 has bins 10 and 20,
run 2 has bins 10, 20 and 30; after dropping each run's maximum bin, only
bin 10 is complete for the group. -/
theorem plot_metrics_complete_witness :
    ("g", 10) ∈ completeKeys [(1, "g"), (2, "g")] [(1, 10), (1, 20), (2, 10), (2, 20), (2, 30)] ∧
    ("g", 20) ∉ completeKeys [(1, "g"), (2, "g")] [(1, 10), (1, 20), (2, 10), (2, 20), (2, 30)] := by
  have h := plot_metrics_complete [(1, 10), (1, 20), (2, 10), (2, 20), (2, 30)]
    [(1, "g"), (2, "g")] (by decide) (by decide)
  have h10 := (h.2.2.2 "g" 10).mpr (by decide)
  have h20 := (h.2.2.2 "g" 20)
  refine ⟨h10, ?_⟩
  intro hmem
  have := (h20.mp hmem).2
  revert this
  decide

/-! ## C10: legacy messages without an exp key -/

theorem lookupKey_cons_self2 {kv : List Nat × MsgValue} {k : List Nat}
    (h : kv.1 = k) (kvs : List (List Nat × MsgValue)) :
    lookupKey (kv :: kvs) k = some kv.2 := by
  unfold lookupKey
  rw [List.find?_cons_of_pos _ (by simp [h])]
  rfl

theorem lookupKey_cons_ne2 {kv : List Nat × MsgValue} {k : List Nat}
    (h : kv.1 ≠ k) (kvs : List (List Nat × MsgValue)) :
    lookupKey (kv :: kvs) k = lookupKey kvs k := by
  unfold lookupKey
  rw [List.find?_cons_of_neg _ (by simp [h])]

theorem lookupKey_some_mem {kvs : List (List Nat × MsgValue)} {k : List Nat}
    {v : MsgValue} (h : lookupKey kvs k = some v) :
    k ∈ kvs.map (fun kv => kv.1) := by
  unfold lookupKey at h
  rcases hf : kvs.find? (fun kv => kv.1 = k) with _ | r
  · rw [hf] at h
    simp at h
  · have hr : r.1 = k := by simpa using List.find?_some hf
    exact List.mem_map.mpr ⟨r, List.mem_of_find?_eq_some hf, hr⟩

theorem lookupKey_update_self :
    ∀ (kvs : List (List Nat × MsgValue)) (k : List Nat) (v : MsgValue),
    k ∈ kvs.map (fun kv => kv.1) →
    lookupKey (kvs.map (fun kv => if kv.1 = k then (k, v) else kv)) k =
      some v := by
  intro kvs
  induction kvs with
  | nil => intro k v h; simp at h
  | cons kv kvs ih =>
    intro k v h
    by_cases hk : kv.1 = k
    · rw [List.map_cons, if_pos hk]
      exact lookupKey_cons_self k v _
    · rw [List.map_cons, if_neg hk]
      rw [lookupKey_cons_ne2 hk]
      apply ih
      simp only [List.map_cons, List.mem_cons] at h
      rcases h with h | h
      · exact absurd h.symm hk
      · exact h

theorem lookupKey_update_ne :
    ∀ (kvs : List (List Nat × MsgValue)) (k : List Nat) (v : MsgValue)
      (k2 : List Nat), k2 ≠ k →
    lookupKey (kvs.map (fun kv => if kv.1 = k then (k, v) else kv)) k2 =
      lookupKey kvs k2 := by
  intro kvs
  induction kvs with
  | nil => intro k v k2 h; rfl
  | cons kv kvs ih =>
    intro k v k2 h
    by_cases hk : kv.1 = k
    · rw [List.map_cons, if_pos hk]
      rw [lookupKey_cons_ne2 (by simp; exact fun he => absurd he.symm h)]
      rw [lookupKey_cons_ne2 (by rw [hk]; exact fun he => absurd he.symm h)]
      exact ih k v k2 h
    · rw [List.map_cons, if_neg hk]
      by_cases hk2 : kv.1 = k2
      · rw [lookupKey_cons_self2 hk2, lookupKey_cons_self2 hk2]
      · rw [lookupKey_cons_ne2 hk2, lookupKey_cons_ne2 hk2]
        exact ih k v k2 h

theorem lookupKey_setKeyVal_self (kvs : List (List Nat × MsgValue))
    (k : List Nat) (v : MsgValue) :
    lookupKey (setKeyVal kvs k v) k = some v := by
  unfold setKeyVal
  split_ifs with hmem
  · exact lookupKey_update_self kvs k v hmem
  · unfold lookupKey
    rw [List.find?_append]
    have hnone : kvs.find? (fun kv => kv.1 = k) = none := by
      rw [List.find?_eq_none]
      intro x hx
      simp only [decide_eq_true_eq]
      intro he
      exact hmem (List.mem_map.mpr ⟨x, hx, he⟩)
    rw [hnone]
    simp

theorem lookupKey_setKeyVal_ne (kvs : List (List Nat × MsgValue))
    (k : List Nat) (v : MsgValue) (k2 : List Nat) (h : k2 ≠ k) :
    lookupKey (setKeyVal kvs k v) k2 = lookupKey kvs k2 := by
  unfold setKeyVal
  split_ifs with hmem
  · exact lookupKey_update_ne kvs k v k2 h
  · unfold lookupKey
    rw [List.find?_append]
    rcases hf : kvs.find? (fun kv => kv.1 = k2) with _ | r
    · rw [hf]
      simp only [Option.none_or]
      rw [List.find?_cons_of_neg _ (by simp; exact fun he => absurd he.symm h),
        List.find?_nil]
    · rw [hf]
      rfl

theorem keys_setKeyVal_mem (kvs : List (List Nat × MsgValue)) (k : List Nat)
    (v : MsgValue) (hmem : k ∈ kvs.map (fun kv => kv.1)) :
    (setKeyVal kvs k v).map (fun kv => kv.1) = kvs.map (fun kv => kv.1) := by
  unfold setKeyVal
  rw [if_pos hmem, List.map_map]
  apply List.map_congr_left
  intro kv _
  by_cases hk : kv.1 = k
  · simp [hk]
  · simp [hk]

theorem keys_setKeyVal_not_mem (kvs : List (List Nat × MsgValue))
    (k : List Nat) (v : MsgValue) (hmem : k ∉ kvs.map (fun kv => kv.1)) :
    (setKeyVal kvs k v).map (fun kv => kv.1) =
      kvs.map (fun kv => kv.1) ++ [k] := by
  unfold setKeyVal
  rw [if_neg hmem, List.map_append]
  rfl

theorem msgToData_legacy (kvs : List (List Nat × MsgValue))
    (pr us r : List Nat) (st : Int) (ts : Nat) (dv : MsgValue)
    (d : List (List Nat × NDArray))
    (hnd : (kvs.map (fun kv => kv.1)).Nodup)
    (hnoexp : keyExp ∉ kvs.map (fun kv => kv.1))
    (hpr : lookupKey kvs keyProject = some (.str pr))
    (hus : lookupKey kvs keyUser = some (.str us))
    (hrun : lookupKey kvs keyRun = some (.str r))
    (hst : lookupKey kvs keyStep = some (.int st))
    (hts : lookupKey kvs keyTimestamp = some (.float ts))
    (hdv : lookupKey kvs keyData = some dv)
    (hd : extractData dv = some d)
    (hkeys : ∀ k ∈ kvs.map (fun kv => kv.1),
      k ∈ [keyProject, keyUser, keyRun, keyStep, keyTimestamp, keyData])
    (hslash : (0x2f : Nat) ∈ r) :
    msgToData (.map kvs) =
      some ⟨pr, us, r.takeWhile (fun c => c ≠ 0x2f),
        (r.dropWhile (fun c => c ≠ 0x2f)).tail, st, ts, d⟩ := by
  have hpatch : legacyPatch kvs =
      some (setKeyVal
        (setKeyVal kvs keyRun (.str ((r.dropWhile (fun c => c ≠ 0x2f)).tail)))
        keyExp (.str (r.takeWhile (fun c => c ≠ 0x2f)))) := by
    unfold legacyPatch splitSlashOnce
    rw [if_neg hnoexp, hrun]
    dsimp only
    rw [if_pos hslash]
    rfl
  dsimp only [msgToData]
  rw [if_pos (by simpa using hnd)]
  rw [hpatch]
  simp only [Option.bind_eq_bind, Option.some_bind]
  rw [lookupKey_setKeyVal_ne _ _ _ _ (by decide),
    lookupKey_setKeyVal_ne _ _ _ _ (by decide), hpr]
  rw [lookupKey_setKeyVal_ne _ _ _ _ (by decide),
    lookupKey_setKeyVal_ne _ _ _ _ (by decide), hus]
  rw [lookupKey_setKeyVal_self]
  rw [lookupKey_setKeyVal_ne _ _ _ _ (by decide), lookupKey_setKeyVal_self]
  rw [lookupKey_setKeyVal_ne _ _ _ _ (by decide),
    lookupKey_setKeyVal_ne _ _ _ _ (by decide), hst]
  rw [lookupKey_setKeyVal_ne _ _ _ _ (by decide),
    lookupKey_setKeyVal_ne _ _ _ _ (by decide), hts]
  rw [lookupKey_setKeyVal_ne _ _ _ _ (by decide),
    lookupKey_setKeyVal_ne _ _ _ _ (by decide), hdv]
  dsimp only
  have hrunmem : keyRun ∈ kvs.map (fun kv => kv.1) := lookupKey_some_mem hrun
  have hkeys1 : (setKeyVal kvs keyRun
      (.str ((r.dropWhile (fun c => c ≠ 0x2f)).tail))).map (fun kv => kv.1) =
      kvs.map (fun kv => kv.1) := keys_setKeyVal_mem _ _ _ hrunmem
  have hkeysP : (setKeyVal
      (setKeyVal kvs keyRun (.str ((r.dropWhile (fun c => c ≠ 0x2f)).tail)))
      keyExp (.str (r.takeWhile (fun c => c ≠ 0x2f)))).map (fun kv => kv.1) =
      kvs.map (fun kv => kv.1) ++ [keyExp] := by
    rw [keys_setKeyVal_not_mem _ _ _ (by rw [hkeys1]; exact hnoexp), hkeys1]
  rw [if_pos ?hke]
  case hke =>
    unfold keysExactly
    rw [Bool.and_eq_true, List.all_eq_true, List.all_eq_true]
    constructor
    · intro k hk
      rw [hkeysP] at hk
      rcases List.mem_append.mp hk with hk | hk
      · have := hkeys k hk
        simp only [List.mem_cons, List.not_mem_nil, or_false] at this
        simp only [List.mem_cons, List.not_mem_nil, or_false, decide_eq_true_eq]
        tauto
      · rw [List.mem_singleton] at hk
        subst hk
        simp
    · intro k hk
      simp only [List.mem_cons, List.not_mem_nil, or_false] at hk
      simp only [decide_eq_true_eq, hkeysP, List.mem_append, List.mem_singleton]
      rcases hk with rfl | rfl | rfl | rfl | rfl | rfl | rfl
      · exact Or.inl (lookupKey_some_mem hpr)
      · exact Or.inl (lookupKey_some_mem hus)
      · exact Or.inr rfl
      · exact Or.inl hrunmem
      · exact Or.inl (lookupKey_some_mem hst)
      · exact Or.inl (lookupKey_some_mem hts)
      · exact Or.inl (lookupKey_some_mem hdv)
  rw [hd]
  rfl

theorem msgToParams_legacy (kvs : List (List Nat × MsgValue))
    (pr us r : List Nat) (pkvs : List (List Nat × MsgValue))
    (ps : List (List Nat × List Nat))
    (hnd : (kvs.map (fun kv => kv.1)).Nodup)
    (hnoexp : keyExp ∉ kvs.map (fun kv => kv.1))
    (hpr : lookupKey kvs keyProject = some (.str pr))
    (hus : lookupKey kvs keyUser = some (.str us))
    (hrun : lookupKey kvs keyRun = some (.str r))
    (hpv : lookupKey kvs keyParams = some (.map pkvs))
    (hpnd : (pkvs.map (fun kv => kv.1)).Nodup)
    (hps : pkvs.mapM (fun (kv : List Nat × MsgValue) =>
      match kv.2 with
      | .str s => some (kv.1, s)
      | _ => (none : Option (List Nat × List Nat))) = some ps)
    (hkeys : ∀ k ∈ kvs.map (fun kv => kv.1),
      k ∈ [keyProject, keyUser, keyRun, keyParams])
    (hslash : (0x2f : Nat) ∈ r) :
    msgToParams (.map kvs) =
      some ⟨pr, us, r.takeWhile (fun c => c ≠ 0x2f),
        (r.dropWhile (fun c => c ≠ 0x2f)).tail, ps⟩ := by
  have hpatch : legacyPatch kvs =
      some (setKeyVal
        (setKeyVal kvs keyRun (.str ((r.dropWhile (fun c => c ≠ 0x2f)).tail)))
        keyExp (.str (r.takeWhile (fun c => c ≠ 0x2f)))) := by
    unfold legacyPatch splitSlashOnce
    rw [if_neg hnoexp, hrun]
    dsimp only
    rw [if_pos hslash]
    rfl
  dsimp only [msgToParams]
  rw [if_pos (by simpa using hnd)]
  rw [hpatch]
  simp only [Option.bind_eq_bind, Option.some_bind]
  rw [lookupKey_setKeyVal_ne _ _ _ _ (by decide),
    lookupKey_setKeyVal_ne _ _ _ _ (by decide), hpr]
  rw [lookupKey_setKeyVal_ne _ _ _ _ (by decide),
    lookupKey_setKeyVal_ne _ _ _ _ (by decide), hus]
  rw [lookupKey_setKeyVal_self]
  rw [lookupKey_setKeyVal_ne _ _ _ _ (by decide), lookupKey_setKeyVal_self]
  rw [lookupKey_setKeyVal_ne _ _ _ _ (by decide),
    lookupKey_setKeyVal_ne _ _ _ _ (by decide), hpv]
  dsimp only
  have hrunmem : keyRun ∈ kvs.map (fun kv => kv.1) := lookupKey_some_mem hrun
  have hkeys1 : (setKeyVal kvs keyRun
      (.str ((r.dropWhile (fun c => c ≠ 0x2f)).tail))).map (fun kv => kv.1) =
      kvs.map (fun kv => kv.1) := keys_setKeyVal_mem _ _ _ hrunmem
  have hkeysP : (setKeyVal
      (setKeyVal kvs keyRun (.str ((r.dropWhile (fun c => c ≠ 0x2f)).tail)))
      keyExp (.str (r.takeWhile (fun c => c ≠ 0x2f)))).map (fun kv => kv.1) =
      kvs.map (fun kv => kv.1) ++ [keyExp] := by
    rw [keys_setKeyVal_not_mem _ _ _ (by rw [hkeys1]; exact hnoexp), hkeys1]
  rw [if_pos ?hke]
  case hke =>
    unfold keysExactly
    rw [Bool.and_eq_true, List.all_eq_true, List.all_eq_true]
    constructor
    · intro k hk
      rw [hkeysP] at hk
      rcases List.mem_append.mp hk with hk | hk
      · have := hkeys k hk
        simp only [List.mem_cons, List.not_mem_nil, or_false] at this
        simp only [List.mem_cons, List.not_mem_nil, or_false, decide_eq_true_eq]
        tauto
      · rw [List.mem_singleton] at hk
        subst hk
        simp
    · intro k hk
      simp only [List.mem_cons, List.not_mem_nil, or_false] at hk
      simp only [decide_eq_true_eq, hkeysP, List.mem_append, List.mem_singleton]
      rcases hk with rfl | rfl | rfl | rfl | rfl
      · exact Or.inl (lookupKey_some_mem hpr)
      · exact Or.inl (lookupKey_some_mem hus)
      · exact Or.inr rfl
      · exact Or.inl hrunmem
      · exact Or.inl (lookupKey_some_mem hpv)
  rw [if_pos (by simpa using hpnd), hps]
  rfl

/-- C10: a packed data or params message whose dict lacks the `exp` key and
whose `run` value contains a slash unpacks successfully, with `exp` set to
the part of the original run before the first `/` and `run` to the
remainder after it. -/
theorem legacy_messages_split :
    (∀ (kvs : List (List Nat × MsgValue)) (bs pr us r : List Nat) (st : Int)
      (ts : Nat) (dv : MsgValue) (d : List (List Nat × NDArray)),
      (kvs.map (fun kv => kv.1)).Nodup →
      keyExp ∉ kvs.map (fun kv => kv.1) →
      lookupKey kvs keyProject = some (.str pr) →
      lookupKey kvs keyUser = some (.str us) →
      lookupKey kvs keyRun = some (.str r) →
      lookupKey kvs keyStep = some (.int st) →
      lookupKey kvs keyTimestamp = some (.float ts) →
      lookupKey kvs keyData = some dv →
      extractData dv = some d →
      (∀ k ∈ kvs.map (fun kv => kv.1),
        k ∈ [keyProject, keyUser, keyRun, keyStep, keyTimestamp, keyData]) →
      (0x2f : Nat) ∈ r →
      packValue (.map kvs) = some bs →
      DataMessage.unpack bs =
        some ⟨pr, us, r.takeWhile (fun c => c ≠ 0x2f),
          (r.dropWhile (fun c => c ≠ 0x2f)).tail, st, ts, d⟩) ∧
    (∀ (kvs : List (List Nat × MsgValue)) (bs pr us r : List Nat)
      (pkvs : List (List Nat × MsgValue)) (ps : List (List Nat × List Nat)),
      (kvs.map (fun kv => kv.1)).Nodup →
      keyExp ∉ kvs.map (fun kv => kv.1) →
      lookupKey kvs keyProject = some (.str pr) →
      lookupKey kvs keyUser = some (.str us) →
      lookupKey kvs keyRun = some (.str r) →
      lookupKey kvs keyParams = some (.map pkvs) →
      (pkvs.map (fun kv => kv.1)).Nodup →
      pkvs.mapM (fun (kv : List Nat × MsgValue) =>
        match kv.2 with
        | .str s => some (kv.1, s)
        | _ => (none : Option (List Nat × List Nat))) = some ps →
      (∀ k ∈ kvs.map (fun kv => kv.1),
        k ∈ [keyProject, keyUser, keyRun, keyParams]) →
      (0x2f : Nat) ∈ r →
      packValue (.map kvs) = some bs →
      ParamsMessage.unpack bs =
        some ⟨pr, us, r.takeWhile (fun c => c ≠ 0x2f),
          (r.dropWhile (fun c => c ≠ 0x2f)).tail, ps⟩) := by
  constructor
  · intro kvs bs pr us r st ts dv d hnd hnoexp hpr hus hrun hst hts hdv hd
      hkeys hslash hpack
    unfold DataMessage.unpack
    rw [unpackb_packValue hpack, Option.some_bind]
    exact msgToData_legacy kvs pr us r st ts dv d hnd hnoexp hpr hus hrun hst
      hts hdv hd hkeys hslash
  · intro kvs bs pr us r pkvs ps hnd hnoexp hpr hus hrun hpv hpnd hps hkeys
      hslash hpack
    unfold ParamsMessage.unpack
    rw [unpackb_packValue hpack, Option.some_bind]
    exact msgToParams_legacy kvs pr us r pkvs ps hnd hnoexp hpr hus hrun hpv
      hpnd hps hkeys hslash

/-- Witness for C10: concrete legacy data and params messages with
`run = "e/r"` unpack with `exp = "e"` and `run = "r"`. -/
theorem legacy_messages_split_witness :
    DataMessage.unpack legacyDataBuf =
      some ⟨[0x70], [0x75], [0x65], [0x72], 1, 7, []⟩ ∧
    ParamsMessage.unpack legacyParamsBuf =
      some ⟨[0x70], [0x75], [0x65], [0x72], []⟩ :=
  ⟨legacy_messages_split.1 legacyDataKvs legacyDataBuf [0x70] [0x75]
      [0x65, 0x2f, 0x72] 1 7 (.map []) [] (by decide) (by decide) (by rfl)
      (by rfl) (by rfl) (by rfl) (by rfl) (by rfl) (by rfl)
      (by decide) (by decide) (by rfl),
   legacy_messages_split.2 legacyParamsKvs legacyParamsBuf [0x70] [0x75]
      [0x65, 0x2f, 0x72] [] [] (by decide) (by decide) (by rfl)
      (by rfl) (by rfl) (by rfl) (by decide) (by rfl) (by decide) (by decide)
      (by rfl)⟩

end Expa
